import Mathlib

/-!
# Wire protocol of the key/value client (`src/client.cpp`)

A shallow embedding of `RedisClient`: the request encoder `send_command`, the
response reader `read_response`, and the eight operations `set`, `get`, `del`,
`pexpire`, `pttl`, `zadd`, `zrem`, `zscore`.

Modelling conventions.

* A byte is a `Fin 256`; a `std::string` and a `std::vector<uint8_t>` are lists
  of bytes.
* Machine integers are natural numbers reduced modulo `2 ^ 32` or `2 ^ 64`
  where the C++ types truncate.
* The host byte order is a parameter (`Endian`): `htonl`, `ntohl` and `ntohll`
  are defined relative to it, and storing an integer to memory (`write`,
  `memcpy`) uses the host layout.
* The socket is a record of the bytes written so far and the chunks still to be
  delivered by the peer. One `write` transfers at most `write_limit` bytes and
  one `read` at most the bytes of the current chunk; the client looks at
  neither count.
* A read of the response buffer at an index that is not below its length is
  recorded as the outcome `outOfBounds` rather than given a value.
-/

namespace RedisClient

/-! ## Bytes and byte order -/

/-- One octet. -/
abbrev Byte := Fin 256

/-- The low eight bits of a number. -/
def byteOf (v : Nat) : Byte := ⟨v % 256, Nat.mod_lt v (by decide)⟩

/-- Little-endian image of the low `n` bytes of `v`. -/
def leBytes : Nat → Nat → List Byte
  | 0, _ => []
  | n + 1, v => byteOf v :: leBytes n (v / 256)

/-- Value of a byte string read little-endian. -/
def leVal : List Byte → Nat
  | [] => 0
  | b :: bs => b.val + 256 * leVal bs

/-- Big-endian image of the low `n` bytes of `v`. -/
def beBytes (n v : Nat) : List Byte := (leBytes n v).reverse

/-- Value of a byte string read big-endian. -/
def beVal (bs : List Byte) : Nat := leVal bs.reverse

/-- Byte order of the machine the client runs on. -/
inductive Endian where
  | little
  | big
  deriving DecidableEq

/-- Object representation of an `n`-byte unsigned integer in host memory. -/
def toMem (e : Endian) (n v : Nat) : List Byte :=
  match e with
  | Endian.little => leBytes n v
  | Endian.big => beBytes n v

/-- The unsigned integer whose object representation in host memory is `bs`
(what `memcpy(&x, bs, n)` or `read(fd, &x, n)` leaves in `x`). -/
def fromMem (e : Endian) (bs : List Byte) : Nat :=
  match e with
  | Endian.little => leVal bs
  | Endian.big => beVal bs

/-- The library function `htonl`: the 32-bit integer whose host memory image is
the network-order (big-endian) image of `x`. -/
def htonl (e : Endian) (x : Nat) : Nat := fromMem e (beBytes 4 x)

/-- The library function `ntohl`: the value of the host memory image of the 32-bit
integer `x` read in network order. -/
def ntohl (e : Endian) (x : Nat) : Nat := beVal (toMem e 4 x)

/-- The platform conversion `ntohll` (64-bit network to host order), as an
unsigned 64-bit integer. -/
def ntohll (e : Endian) (x : Nat) : Nat := beVal (toMem e 8 x)

/-- Conversion of an unsigned 64-bit pattern to `int64_t` (two's complement). -/
def toInt64 (u : Nat) : Int :=
  if u % 2 ^ 64 < 2 ^ 63 then ((u % 2 ^ 64 : Nat) : Int) else ((u % 2 ^ 64 : Nat) : Int) - 2 ^ 64

/-! ## The connection -/

/-- The socket as seen by the client: `sent` collects every byte written, in
order; `incoming` lists the chunks the peer delivers, one underlying `read`
returning at most the bytes of the current chunk. -/
structure Conn where
  sent : List Byte
  incoming : List (List Byte)
  deriving DecidableEq

/-- The most bytes one call of `write` transfers: `0x7ffff000`, the limit of
the Linux kernel for a single call. -/
def write_limit : Nat := 2147479552

/-- The system call `write(sock_fd, buf, n)` on the blocking socket, with `buf`
holding the bytes `bs`: the bytes that one call transfers, the first
`write_limit` at most, are appended to the stream. The count the call returns
is not used by the client, so the rest of `bs` is never written. -/
def sock_write (bs : List Byte) (c : Conn) : Conn :=
  { c with sent := c.sent ++ bs.take write_limit }

/-- The system call `read(sock_fd, buf, n)`: the bytes stored into `buf` and the
connection afterwards. A request for zero bytes returns at once; otherwise the
call returns the next available bytes, at most `n` of them and never crossing a
chunk boundary; at the end of the stream it returns nothing. -/
def sock_read : Nat → List (List Byte) → List Byte × List (List Byte)
  | 0, chunks => ([], chunks)
  | _ + 1, [] => ([], [])
  | n + 1, [] :: rest => sock_read (n + 1) rest
  | n + 1, (b :: bs) :: rest =>
    if (b :: bs).length ≤ n + 1 then (b :: bs, rest)
    else ((b :: bs).take (n + 1), (b :: bs).drop (n + 1) :: rest)

/-! ## Request encoder -/

/-- First loop of `send_command`: `total_size += 4 + arg.size()` on a
`uint32_t` accumulator. -/
def total_size_loop (total_size : Nat) : List (List Byte) → Nat
  | [] => total_size
  | arg :: rest => total_size_loop ((total_size + (4 + arg.length)) % 2 ^ 32) rest

/-- Second loop of `send_command`: per argument, the length word then the
bytes. -/
def send_args (e : Endian) : List (List Byte) → Conn → Conn
  | [], c => c
  | arg :: rest, c =>
    let len := htonl e (arg.length % 2 ^ 32)
    let c1 := sock_write (toMem e 4 len) c
    let c2 := sock_write arg c1
    send_args e rest c2

/-- The method `RedisClient::send_command`. -/
def send_command (e : Endian) (cmd : List (List Byte)) (c : Conn) : Conn :=
  let total_size := total_size_loop 4 cmd
  let size := htonl e total_size
  let c1 := sock_write (toMem e 4 size) c
  let nargs := htonl e (cmd.length % 2 ^ 32)
  let c2 := sock_write (toMem e 4 nargs) c1
  send_args e cmd c2

/-- The bytes a call of `send_command` adds to the stream. -/
def bytes_written (e : Endian) (cmd : List (List Byte)) (c : Conn) : List Byte :=
  (send_command e cmd c).sent.drop c.sent.length

/-! ## Reading the response buffer -/

/-- How a piece of the client ends: a normal return, a thrown
`std::runtime_error`, a read of the response buffer at an index that is not
below its length, or the use of a `size` word that `read` did not fill. -/
inductive Outcome (α : Type) where
  | ok (value : α)
  | thrown (what : String)
  | outOfBounds (index : Nat)
  | indeterminate
  deriving DecidableEq

/-- Sequencing: the continuation runs only after a normal return. -/
def Outcome.bind {α β : Type} (r : Outcome α) (f : α → Outcome β) : Outcome β :=
  match r with
  | Outcome.ok v => f v
  | Outcome.thrown w => Outcome.thrown w
  | Outcome.outOfBounds i => Outcome.outOfBounds i
  | Outcome.indeterminate => Outcome.indeterminate

/-- The expression `response[i]`. -/
def readByte (response : List Byte) (i : Nat) : Outcome Byte :=
  match response[i]? with
  | some b => Outcome.ok b
  | none => Outcome.outOfBounds i

/-- A copy of `n` bytes out of the buffer starting at `&response[off]`
(`memcpy`, or the `std::string(ptr, n)` constructor). The bytes are read in
ascending order, so the first index out of range, if any, is the larger of
`off` and the length; a copy of no bytes reads nothing. -/
def readBytes (response : List Byte) (off n : Nat) : Outcome (List Byte) :=
  if n = 0 then Outcome.ok []
  else if off + n ≤ response.length then Outcome.ok ((response.drop off).take n)
  else Outcome.outOfBounds (max off response.length)

/-- The method `RedisClient::read_response`: one `read` for the size word, one
`read` into a zero-filled vector of `size` bytes. -/
def read_response (e : Endian) (c : Conn) : Outcome (List Byte) × Conn :=
  let hdr := sock_read 4 c.incoming
  if hdr.1.length = 4 then
    let size := ntohl e (fromMem e hdr.1)
    let got := sock_read size hdr.2
    (Outcome.ok (got.1 ++ List.replicate (size - got.1.length) 0), { c with incoming := got.2 })
  else (Outcome.indeterminate, { c with incoming := hdr.2 })

/-! ## Tags and operations -/

def TAG_NIL : Byte := 0
def TAG_ERR : Byte := 1
def TAG_STR : Byte := 2
def TAG_INT : Byte := 3
def TAG_DBL : Byte := 4
def TAG_ARR : Byte := 5

/-- The message of the only exception the operations throw themselves. -/
def unexpected_response_type : String := "Unexpected response type"

/-- The body of `set` after `send_command`: the statement `read_response();`
drops the buffer unread. -/
def set_of_response (_response : List Byte) : Outcome Unit := Outcome.ok ()

/-- The body of `pexpire` after `send_command`: the statement `read_response();`
drops the buffer unread. -/
def pexpire_of_response (_response : List Byte) : Outcome Unit := Outcome.ok ()

/-- The body of `get` after `auto response = read_response();`. -/
def get_of_response (e : Endian) (response : List Byte) : Outcome (List Byte) :=
  (readByte response 0).bind fun t0 =>
  if t0 = TAG_NIL then Outcome.ok []
  else (readByte response 0).bind fun t1 =>
  if t1 ≠ TAG_STR then Outcome.thrown unexpected_response_type
  else (readBytes response 1 4).bind fun raw =>
  let len := ntohl e (fromMem e raw)
  readBytes response 5 len

/-- The body of `del` after `auto response = read_response();`. -/
def del_of_response (e : Endian) (response : List Byte) : Outcome Bool :=
  (readByte response 0).bind fun t0 =>
  if t0 ≠ TAG_INT then Outcome.thrown unexpected_response_type
  else (readBytes response 1 8).bind fun raw =>
  let value := fromMem e raw
  Outcome.ok (decide (ntohll e value = 1))

/-- The body of `pttl` after `auto response = read_response();`; the result of
`ntohll` is returned as an `int64_t`. -/
def pttl_of_response (e : Endian) (response : List Byte) : Outcome Int :=
  (readByte response 0).bind fun t0 =>
  if t0 ≠ TAG_INT then Outcome.thrown unexpected_response_type
  else (readBytes response 1 8).bind fun raw =>
  let value := fromMem e raw
  Outcome.ok (toInt64 (ntohll e value))

/-- The body of `zadd` after `auto response = read_response();`. -/
def zadd_of_response (e : Endian) (response : List Byte) : Outcome Bool :=
  (readByte response 0).bind fun t0 =>
  if t0 ≠ TAG_INT then Outcome.thrown unexpected_response_type
  else (readBytes response 1 8).bind fun raw =>
  let value := fromMem e raw
  Outcome.ok (decide (ntohll e value = 1))

/-- The body of `zrem` after `auto response = read_response();`. -/
def zrem_of_response (e : Endian) (response : List Byte) : Outcome Bool :=
  (readByte response 0).bind fun t0 =>
  if t0 ≠ TAG_INT then Outcome.thrown unexpected_response_type
  else (readBytes response 1 8).bind fun raw =>
  let value := fromMem e raw
  Outcome.ok (decide (ntohll e value = 1))

/-- What `del`, `pttl`, `zadd` and `zrem` have in common, for the proofs: the
tag test, the `memcpy` of eight bytes into `value` and the call of `ntohll`. -/
def int_of_response (e : Endian) (response : List Byte) : Outcome Nat :=
  (readByte response 0).bind fun t0 =>
  if t0 ≠ TAG_INT then Outcome.thrown unexpected_response_type
  else (readBytes response 1 8).bind fun raw =>
  let value := fromMem e raw
  Outcome.ok (ntohll e value)

/-- Object representation of the `double` constant `0.0`. -/
def double_zero : List Byte := [0, 0, 0, 0, 0, 0, 0, 0]

/-- The body of `zscore` after `read_response()`. A `double` is carried as its
eight-byte object representation in host memory. -/
def zscore_of_response (response : List Byte) : Outcome (List Byte) :=
  (readByte response 0).bind fun t0 =>
  if t0 = TAG_NIL then Outcome.ok double_zero
  else (readByte response 0).bind fun t1 =>
  if t1 ≠ TAG_DBL then Outcome.thrown unexpected_response_type
  else readBytes response 1 8

/-- Decimal digits of a natural number, most significant first. -/
def dec_digits : Nat → Nat → List Byte → List Byte
  | 0, _, acc => acc
  | fuel + 1, n, acc =>
    if n < 10 then byteOf (48 + n) :: acc
    else dec_digits fuel (n / 10) (byteOf (48 + n % 10) :: acc)

/-- The library function `std::to_string` on an `int64_t`. -/
def to_string (ms : Int) : List Byte :=
  if ms < 0 then 45 :: dec_digits (ms.natAbs + 1) ms.natAbs []
  else dec_digits (ms.natAbs + 1) ms.natAbs []

def verb_set : List Byte := [115, 101, 116]
def verb_get : List Byte := [103, 101, 116]
def verb_del : List Byte := [100, 101, 108]
def verb_pexpire : List Byte := [112, 101, 120, 112, 105, 114, 101]
def verb_pttl : List Byte := [112, 116, 116, 108]
def verb_zrem : List Byte := [122, 114, 101, 109]
def verb_zscore : List Byte := [122, 115, 99, 111, 114, 101]

/-- One request/response exchange: `send_command(cmd)`, `read_response()`, then
the body `k` of the operation on the buffer. -/
def exchange {α : Type} (e : Endian) (cmd : List (List Byte))
    (k : List Byte → Outcome α) (c : Conn) : Outcome α × Conn :=
  let c1 := send_command e cmd c
  let r := read_response e c1
  (r.1.bind k, r.2)

/-- The operation `RedisClient::set`. -/
def set (e : Endian) (key value : List Byte) (c : Conn) : Outcome Unit × Conn :=
  exchange e [verb_set, key, value] set_of_response c

/-- The operation `RedisClient::get`. -/
def get (e : Endian) (key : List Byte) (c : Conn) : Outcome (List Byte) × Conn :=
  exchange e [verb_get, key] (get_of_response e) c

/-- The operation `RedisClient::del`. -/
def del (e : Endian) (key : List Byte) (c : Conn) : Outcome Bool × Conn :=
  exchange e [verb_del, key] (del_of_response e) c

/-- The operation `RedisClient::pexpire`. -/
def pexpire (e : Endian) (key : List Byte) (ms : Int) (c : Conn) : Outcome Unit × Conn :=
  exchange e [verb_pexpire, key, to_string ms] pexpire_of_response c

/-- The operation `RedisClient::pttl`. -/
def pttl (e : Endian) (key : List Byte) (c : Conn) : Outcome Int × Conn :=
  exchange e [verb_pttl, key] (pttl_of_response e) c

/-- The operation `RedisClient::zrem`. -/
def zrem (e : Endian) (key member : List Byte) (c : Conn) : Outcome Bool × Conn :=
  exchange e [verb_zrem, key, member] (zrem_of_response e) c

/-- The operation `RedisClient::zscore`. -/
def zscore (e : Endian) (key member : List Byte) (c : Conn) : Outcome (List Byte) × Conn :=
  exchange e [verb_zscore, key, member] zscore_of_response c

/-! ## The wire layout as the specification words it -/

/-- The 4-byte big-endian encoding of the specification. -/
def BE32 (v : Nat) : List Byte :=
  [byteOf (v / 2 ^ 24), byteOf (v / 2 ^ 16), byteOf (v / 2 ^ 8), byteOf v]

/-- The sum `Σ (4 + len(arg_i))`. -/
def args_size : List (List Byte) → Nat
  | [] => 0
  | arg :: rest => (4 + arg.length) + args_size rest

/-- The repeated part of a frame: `arg_len` then `arg_bytes`, per argument in
order. -/
def layout_args : List (List Byte) → List Byte
  | [] => []
  | arg :: rest => BE32 arg.length ++ arg ++ layout_args rest

/-- The frame of a command: `total_size`, `arg_count`, then the arguments. -/
def frame_layout (cmd : List (List Byte)) : List Byte :=
  BE32 (4 + args_size cmd) ++ BE32 cmd.length ++ layout_args cmd

/-- The repeated part of the wire layout read back: `count` times a 4-byte
big-endian `arg_len` and then `arg_len` bytes; the body must end with the last
argument. -/
def parse_args : Nat → List Byte → Option (List (List Byte))
  | 0, bs => if bs = [] then some [] else none
  | count + 1, bs =>
    if bs.length < 4 then none
    else
      let len := beVal (bs.take 4)
      let rest := bs.drop 4
      if rest.length < len then none
      else (parse_args count (rest.drop len)).map fun args => rest.take len :: args

/-- The wire layout read back, field by field as the specification lists them:
`total_size`, then a body of that many bytes made of `arg_count` and the
arguments. A field that runs past the bytes at hand gives `none`. -/
def parse_frame (bs : List Byte) : Option (List (List Byte)) :=
  if bs.length < 4 then none
  else
    let total := beVal (bs.take 4)
    let rest := bs.drop 4
    if rest.length < total then none
    else
      let body := rest.take total
      if body.length < 4 then none
      else parse_args (beVal (body.take 4)) (body.drop 4)

/-- The value of eight bytes read as a big-endian signed 64-bit integer. -/
def beInt64 (p : List Byte) : Int :=
  if beVal p < 2 ^ 63 then (beVal p : Int) else (beVal p : Int) - 2 ^ 64

/-- The length word of a `Str` buffer: bytes 1 to 4 read big-endian. -/
def declared_length (response : List Byte) : Nat := beVal ((response.drop 1).take 4)

/-- A string of `m` zero bytes. -/
def zero_string (m : Nat) : List Byte := List.replicate m 0

/-- A string of `2 ^ 32` zero bytes. -/
def huge_arg : List Byte := List.replicate 4294967296 0

/-- The 8-byte big-endian two's-complement encoding of the specification: the
bytes of `v` modulo `2 ^ 64`, most significant first. -/
def BE64 (v : Int) : List Byte :=
  [byteOf ((v % 2 ^ 64).toNat / 2 ^ 56), byteOf ((v % 2 ^ 64).toNat / 2 ^ 48),
    byteOf ((v % 2 ^ 64).toNat / 2 ^ 40), byteOf ((v % 2 ^ 64).toNat / 2 ^ 32),
    byteOf ((v % 2 ^ 64).toNat / 2 ^ 24), byteOf ((v % 2 ^ 64).toNat / 2 ^ 16),
    byteOf ((v % 2 ^ 64).toNat / 2 ^ 8), byteOf (v % 2 ^ 64).toNat]

/-- The repeated part of what reaches the stream: per argument the length word,
then the bytes one `write` transfers. -/
def wire_args : List (List Byte) → List Byte
  | [] => []
  | arg :: rest => BE32 arg.length ++ arg.take write_limit ++ wire_args rest

/-- What reaches the stream for a command: the two header words, then
`wire_args`. -/
def wire_frame (cmd : List (List Byte)) : List Byte :=
  BE32 (4 + args_size cmd) ++ BE32 cmd.length ++ wire_args cmd

/-- The number of bytes of `wire_args`. -/
def wire_size : List (List Byte) → Nat
  | [] => 0
  | arg :: rest => (4 + min arg.length write_limit) + wire_size rest

/-- The repeated part of what reaches the stream, with each `arg_len` reduced
modulo `2 ^ 32`. -/
def wire_args32 : List (List Byte) → List Byte
  | [] => []
  | arg :: rest => BE32 (arg.length % 2 ^ 32) ++ arg.take write_limit ++ wire_args32 rest

/-- An argument one byte longer than `write_limit`. -/
def cut_arg : List Byte := zero_string 2147479553

/-- The argument of `write_limit` zero bytes followed by the byte `x`. -/
def cut_arg_ending (x : Byte) : List Byte := zero_string 2147479552 ++ [x]

/-- Eight arguments of `2 ^ 29` zero bytes each. -/
def wrap_cmd : List (List Byte) := List.replicate 8 (zero_string 536870912)

/-- The bytes of a text of ASCII characters. -/
def ascii (s : String) : List Byte := s.toList.map fun ch => byteOf ch.toNat

/-- The value of a string of decimal digits, most significant first. -/
def dec_value (ds : List Byte) : Nat := ds.foldl (fun acc b => 10 * acc + (b.val - 48)) 0

/-- Whether a byte is one of the characters `0` to `9`. -/
def is_digit (b : Byte) : Bool := decide (48 ≤ b.val ∧ b.val ≤ 57)

/-- The digits of a decimal text: the text without its leading `-`, if any. -/
def digits_of (d : List Byte) : List Byte := if d.head? = some 45 then d.tail else d

/-- Reading a decimal text: an optional `-`, then one or more digits. -/
def parse_decimal (d : List Byte) : Option Int :=
  if digits_of d ≠ [] ∧ (digits_of d).all is_digit then
    if d.head? = some 45 then some (-(dec_value (digits_of d) : Int))
    else some (dec_value (digits_of d) : Int)
  else none

theorem byteOf_val (v : Nat) : (byteOf v).val = v % 256 := rfl

theorem byteOf_of_val (b : Byte) : byteOf b.val = b := by
  apply Fin.ext
  simp [byteOf_val, Nat.mod_eq_of_lt b.isLt]

theorem leBytes_length (n v : Nat) : (leBytes n v).length = n := by
  induction n generalizing v with
  | zero => rfl
  | succ n ih => simp [leBytes, ih]

theorem beBytes_length (n v : Nat) : (beBytes n v).length = n := by
  simp [beBytes, leBytes_length]

theorem leVal_leBytes (n v : Nat) : leVal (leBytes n v) = v % 256 ^ n := by
  induction n generalizing v with
  | zero => simp [leBytes, leVal, Nat.mod_one]
  | succ n ih =>
    simp only [leBytes, leVal, ih, byteOf_val]
    rw [pow_succ, Nat.mul_comm (256 ^ n) 256, Nat.mod_mul]

theorem leBytes_leVal (bs : List Byte) : leBytes bs.length (leVal bs) = bs := by
  induction bs with
  | nil => rfl
  | cons b bs ih =>
    have hb : b.val < 256 := b.isLt
    have h1 : (b.val + 256 * leVal bs) / 256 = leVal bs := by omega
    have h2 : byteOf (b.val + 256 * leVal bs) = b := by
      apply Fin.ext
      simp only [byteOf_val]
      omega
    simp only [List.length_cons, leBytes, leVal, h1, h2, ih]

theorem leVal_lt (bs : List Byte) : leVal bs < 256 ^ bs.length := by
  induction bs with
  | nil => simp [leVal]
  | cons b bs ih =>
    have hb : b.val < 256 := b.isLt
    simp only [leVal, List.length_cons, pow_succ]
    omega

theorem beVal_lt (bs : List Byte) : beVal bs < 256 ^ bs.length := by
  have h := leVal_lt bs.reverse
  simpa [beVal] using h

theorem beVal_beBytes (n v : Nat) : beVal (beBytes n v) = v % 256 ^ n := by
  simp [beVal, beBytes, leVal_leBytes]

theorem beBytes_beVal (bs : List Byte) : beBytes bs.length (beVal bs) = bs := by
  have h := leBytes_leVal bs.reverse
  simp only [List.length_reverse] at h
  simp [beBytes, beVal, h]

theorem leBytes_mod (n v : Nat) : leBytes n (v % 256 ^ n) = leBytes n v := by
  have h := leBytes_leVal (leBytes n v)
  rw [leBytes_length, leVal_leBytes] at h
  exact h

theorem beBytes_mod (n v : Nat) : beBytes n (v % 256 ^ n) = beBytes n v := by
  simp [beBytes, leBytes_mod]

/-- Storing `htonl x` to host memory lays down the big-endian bytes of `x`,
whatever the host order. -/
theorem toMem_htonl (e : Endian) (x : Nat) : toMem e 4 (htonl e x) = beBytes 4 x := by
  cases e with
  | little =>
    have h := leBytes_leVal (beBytes 4 x)
    rw [beBytes_length] at h
    simpa [toMem, htonl, fromMem] using h
  | big =>
    have h := beBytes_beVal (beBytes 4 x)
    rw [beBytes_length] at h
    simpa [toMem, htonl, fromMem] using h

/-- Loading four bytes from host memory and applying `ntohl` reads them
big-endian, whatever the host order. -/
theorem ntohl_fromMem (e : Endian) (bs : List Byte) (h : bs.length = 4) :
    ntohl e (fromMem e bs) = beVal bs := by
  cases e with
  | little =>
    have h1 := leBytes_leVal bs
    rw [h] at h1
    simp [ntohl, toMem, fromMem, h1]
  | big =>
    have h1 := beBytes_beVal bs
    rw [h] at h1
    simp [ntohl, toMem, fromMem, h1]

/-- Loading eight bytes from host memory and applying `ntohll` reads them
big-endian, whatever the host order. -/
theorem ntohll_fromMem (e : Endian) (bs : List Byte) (h : bs.length = 8) :
    ntohll e (fromMem e bs) = beVal bs := by
  cases e with
  | little =>
    have h1 := leBytes_leVal bs
    rw [h] at h1
    simp [ntohll, toMem, fromMem, h1]
  | big =>
    have h1 := beBytes_beVal bs
    rw [h] at h1
    simp [ntohll, toMem, fromMem, h1]

theorem beBytes_four (v : Nat) : beBytes 4 v = BE32 v := by
  simp only [beBytes, leBytes, BE32, List.reverse_cons, List.reverse_nil, List.nil_append,
    List.cons_append, Nat.div_div_eq_div_mul]
  rfl

theorem BE32_length (v : Nat) : (BE32 v).length = 4 := rfl

theorem beVal_BE32 (v : Nat) : beVal (BE32 v) = v % 2 ^ 32 := by
  rw [← beBytes_four, beVal_beBytes]
  rfl

theorem BE32_mod (v : Nat) : BE32 (v % 2 ^ 32) = BE32 v := by
  have h := beBytes_mod 4 v
  rw [beBytes_four, beBytes_four] at h
  exact h

/-! ## What the request encoder writes -/

theorem sock_write_sent (bs : List Byte) (c : Conn) :
    (sock_write bs c).sent = c.sent ++ bs.take write_limit := rfl

theorem take_write_limit_word (v : Nat) : (BE32 v).take write_limit = BE32 v := rfl

theorem send_args_sent (e : Endian) (cmd : List (List Byte)) (c : Conn) :
    (send_args e cmd c).sent = c.sent ++ wire_args cmd := by
  induction cmd generalizing c with
  | nil => simp [send_args, wire_args]
  | cons arg rest ih =>
    simp only [send_args, ih, sock_write_sent, toMem_htonl, beBytes_four, BE32_mod, wire_args,
      take_write_limit_word, List.append_assoc]

theorem total_size_loop_mod (t : Nat) (cmd : List (List Byte)) :
    total_size_loop t cmd % 2 ^ 32 = (t + args_size cmd) % 2 ^ 32 := by
  induction cmd generalizing t with
  | nil => simp [total_size_loop, args_size]
  | cons arg rest ih =>
    simp only [total_size_loop, args_size, ih]
    omega

theorem send_command_sent (e : Endian) (cmd : List (List Byte)) (c : Conn) :
    (send_command e cmd c).sent = c.sent ++ wire_frame cmd := by
  have ht : BE32 (total_size_loop 4 cmd) = BE32 (4 + args_size cmd) := by
    rw [← BE32_mod (total_size_loop 4 cmd), total_size_loop_mod, BE32_mod]
  simp only [send_command, send_args_sent, sock_write_sent, toMem_htonl, beBytes_four, BE32_mod,
    ht, wire_frame, take_write_limit_word, List.append_assoc]

theorem bytes_written_eq (e : Endian) (cmd : List (List Byte)) (c : Conn) :
    bytes_written e cmd c = wire_frame cmd := by
  simp [bytes_written, send_command_sent]

/-- When every argument fits one `write`, what reaches the stream is the frame
layout. -/
theorem wire_args_whole (cmd : List (List Byte)) (hw : ∀ a ∈ cmd, a.length ≤ write_limit) :
    wire_args cmd = layout_args cmd := by
  induction cmd with
  | nil => rfl
  | cons arg rest ih =>
    rw [wire_args, layout_args, ih (fun a ha => hw a (List.mem_cons_of_mem arg ha)),
      List.take_of_length_le (hw arg (List.mem_cons_self arg rest))]

theorem wire_frame_whole (cmd : List (List Byte)) (hw : ∀ a ∈ cmd, a.length ≤ write_limit) :
    wire_frame cmd = frame_layout cmd := by
  rw [wire_frame, frame_layout, wire_args_whole cmd hw]

theorem wire_args_length (cmd : List (List Byte)) : (wire_args cmd).length = wire_size cmd := by
  induction cmd with
  | nil => rfl
  | cons arg rest ih =>
    simp only [wire_args, wire_size, List.length_append, BE32_length, ih, List.length_take,
      Nat.min_comm]

theorem wire_frame_take (cmd : List (List Byte)) :
    (wire_frame cmd).take 4 = BE32 (4 + args_size cmd) := rfl

theorem wire_frame_drop (cmd : List (List Byte)) :
    (wire_frame cmd).drop 4 = BE32 cmd.length ++ wire_args cmd := rfl

theorem wire_frame_drop_length (cmd : List (List Byte)) :
    ((wire_frame cmd).drop 4).length = 4 + wire_size cmd := by
  rw [wire_frame_drop, List.length_append, BE32_length, wire_args_length]

theorem layout_args_length (cmd : List (List Byte)) :
    (layout_args cmd).length = args_size cmd := by
  induction cmd with
  | nil => rfl
  | cons arg rest ih =>
    simp only [layout_args, args_size, List.length_append, BE32_length, ih]

theorem frame_layout_take (cmd : List (List Byte)) :
    (frame_layout cmd).take 4 = BE32 (4 + args_size cmd) := rfl

theorem frame_layout_drop (cmd : List (List Byte)) :
    (frame_layout cmd).drop 4 = BE32 cmd.length ++ layout_args cmd := rfl

theorem frame_layout_drop_length (cmd : List (List Byte)) :
    ((frame_layout cmd).drop 4).length = 4 + args_size cmd := by
  rw [frame_layout_drop, List.length_append, BE32_length, layout_args_length]

theorem frame_layout_length (cmd : List (List Byte)) :
    (frame_layout cmd).length = 8 + args_size cmd := by
  have h := frame_layout_drop_length cmd
  have h4 : (frame_layout cmd).length = ((frame_layout cmd).drop 4).length + 4 := by
    rw [List.length_drop]
    have : 4 ≤ (frame_layout cmd).length := by
      rw [frame_layout, List.length_append, List.length_append, BE32_length]
      omega
    omega
  omega

theorem huge_arg_length : huge_arg.length = 4294967296 := List.length_replicate _ _

theorem args_size_single (a : List Byte) : args_size [a] = 4 + a.length := rfl

/-! ## Parsing a frame back -/

theorem args_size_mem (cmd : List (List Byte)) (a : List Byte) (h : a ∈ cmd) :
    4 + a.length ≤ args_size cmd := by
  induction cmd with
  | nil => cases h
  | cons b rest ih =>
    simp only [args_size]
    rcases List.mem_cons.mp h with rfl | h1
    · omega
    · have := ih h1
      omega

theorem args_size_count (cmd : List (List Byte)) : 4 * cmd.length ≤ args_size cmd := by
  induction cmd with
  | nil => simp [args_size]
  | cons b rest ih =>
    simp only [args_size, List.length_cons]
    omega

theorem parse_args_layout (cmd : List (List Byte)) (h : ∀ a ∈ cmd, a.length < 2 ^ 32) :
    parse_args cmd.length (layout_args cmd) = some cmd := by
  induction cmd with
  | nil => simp [parse_args, layout_args]
  | cons a rest ih =>
    have ha : a.length < 2 ^ 32 := h a (List.mem_cons_self a rest)
    have hrest : parse_args rest.length (layout_args rest) = some rest :=
      ih (fun b hb => h b (List.mem_cons_of_mem a hb))
    have htake : (layout_args (a :: rest)).take 4 = BE32 a.length := rfl
    have hdrop : (layout_args (a :: rest)).drop 4 = a ++ layout_args rest := by
      simp only [layout_args, List.append_assoc]
      rfl
    have hlen : ¬ (layout_args (a :: rest)).length < 4 := by
      rw [layout_args_length]
      simp only [args_size]
      omega
    have hval : beVal (BE32 a.length) = a.length := by
      rw [beVal_BE32, Nat.mod_eq_of_lt ha]
    have hfit : ¬ (a ++ layout_args rest).length < a.length := by
      rw [List.length_append]
      omega
    simp only [List.length_cons, parse_args, hlen, htake, hdrop, hval, hfit, if_false,
      List.drop_left, List.take_left, hrest, Option.map_some']

theorem parse_frame_layout (cmd : List (List Byte)) (h : 4 + args_size cmd < 2 ^ 32) :
    parse_frame (frame_layout cmd) = some cmd := by
  have hargs : ∀ a ∈ cmd, a.length < 2 ^ 32 := by
    intro a ha
    have := args_size_mem cmd a ha
    omega
  have hcount : cmd.length < 2 ^ 32 := by
    have := args_size_count cmd
    omega
  have hlen : ¬ (frame_layout cmd).length < 4 := by
    simp only [frame_layout, List.length_append, BE32_length]
    omega
  have htotal : beVal (BE32 (4 + args_size cmd)) = 4 + args_size cmd := by
    rw [beVal_BE32, Nat.mod_eq_of_lt h]
  have hbody : (BE32 cmd.length ++ layout_args cmd).length = 4 + args_size cmd := by
    rw [List.length_append, BE32_length, layout_args_length]
  have hfit : ¬ (BE32 cmd.length ++ layout_args cmd).length < 4 + args_size cmd := by
    rw [hbody]
    omega
  have hwhole : (BE32 cmd.length ++ layout_args cmd).take (4 + args_size cmd)
      = BE32 cmd.length ++ layout_args cmd := by
    rw [← hbody, List.take_length]
  have hbody4 : ¬ (BE32 cmd.length ++ layout_args cmd).length < 4 := by
    rw [hbody]
    omega
  have hcnt : beVal ((BE32 cmd.length ++ layout_args cmd).take 4) = cmd.length := by
    have : (BE32 cmd.length ++ layout_args cmd).take 4 = BE32 cmd.length := rfl
    rw [this, beVal_BE32, Nat.mod_eq_of_lt hcount]
  have hrest : (BE32 cmd.length ++ layout_args cmd).drop 4 = layout_args cmd := rfl
  simp only [parse_frame, hlen, frame_layout_take, frame_layout_drop, htotal, hfit, hwhole,
    hbody4, hcnt, hrest, if_false]
  exact parse_args_layout cmd hargs

/-- With one argument of `2 ^ 32` bytes what reaches the stream parses to a
single empty argument. -/
theorem parse_wire_wraps (a : List Byte) (h : a.length = 4294967296) :
    parse_frame (wire_frame [a]) = some [[]] := by
  have hlen : ¬ (wire_frame [a]).length < 4 := by
    simp only [wire_frame, List.length_append, BE32_length]
    omega
  have htotal : beVal (BE32 (4 + args_size [a])) = 8 := by
    rw [beVal_BE32, args_size_single, h]
    rfl
  have hfit : ¬ (BE32 [a].length ++ wire_args [a]).length < 8 := by
    rw [List.length_append, BE32_length, wire_args_length, wire_size]
    omega
  have hbody : (BE32 [a].length ++ wire_args [a]).take 8 = BE32 1 ++ BE32 a.length := rfl
  simp only [parse_frame, hlen, wire_frame_take, wire_frame_drop, htotal, hfit, hbody,
    if_false, h]
  decide

/-- The arguments `parse_args` returns fill the bytes it was given. -/
theorem parse_args_size (n : Nat) :
    ∀ (bs : List Byte) (cmd : List (List Byte)), parse_args n bs = some cmd →
      bs.length = args_size cmd := by
  induction n with
  | zero =>
    intro bs cmd h
    rw [parse_args] at h
    by_cases hb : bs = []
    · rw [if_pos hb] at h
      rw [hb, ← Option.some.inj h]
      rfl
    · rw [if_neg hb] at h
      cases h
  | succ n ih =>
    intro bs cmd h
    rw [parse_args] at h
    by_cases h4 : bs.length < 4
    · rw [if_pos h4] at h
      cases h
    · rw [if_neg h4] at h
      by_cases hl : (bs.drop 4).length < beVal (bs.take 4)
      · simp only [if_pos hl] at h
        cases h
      · simp only [if_neg hl] at h
        cases hrec : parse_args n ((bs.drop 4).drop (beVal (bs.take 4))) with
        | none =>
          rw [hrec] at h
          cases h
        | some args =>
          rw [hrec, Option.map_some'] at h
          have hsz := ih _ _ hrec
          rw [← Option.some.inj h, args_size, List.length_take, ← hsz]
          simp only [List.length_drop] at hl hsz ⊢
          omega

/-- A frame that parses declares the size of what it parses to, and holds that
many bytes. -/
theorem parse_frame_size (bs : List Byte) (cmd : List (List Byte))
    (h : parse_frame bs = some cmd) :
    beVal (bs.take 4) = 4 + args_size cmd ∧ beVal (bs.take 4) ≤ (bs.drop 4).length := by
  rw [parse_frame] at h
  by_cases h4 : bs.length < 4
  · rw [if_pos h4] at h
    cases h
  · rw [if_neg h4] at h
    by_cases hl : (bs.drop 4).length < beVal (bs.take 4)
    · simp only [if_pos hl] at h
      cases h
    · simp only [if_neg hl] at h
      by_cases hb : ((bs.drop 4).take (beVal (bs.take 4))).length < 4
      · rw [if_pos hb] at h
        cases h
      · rw [if_neg hb] at h
        have hsz := parse_args_size _ _ _ h
        simp only [List.length_drop, List.length_take] at hsz hb hl ⊢
        omega

theorem parse_frame_fits (bs : List Byte) (cmd : List (List Byte))
    (h : parse_frame bs = some cmd) : 4 + args_size cmd < 2 ^ 32 := by
  have h1 := (parse_frame_size bs cmd h).1
  have h2 := beVal_lt (bs.take 4)
  have h3 : (bs.take 4).length ≤ 4 := by
    rw [List.length_take]
    omega
  have h4 : (256 : Nat) ^ (bs.take 4).length ≤ 256 ^ 4 := Nat.pow_le_pow_right (by norm_num) h3
  have h5 : (256 : Nat) ^ 4 = 2 ^ 32 := by norm_num
  omega

/-! ## Commands beyond the limits -/

theorem zero_string_length (m : Nat) : (zero_string m).length = m := List.length_replicate _ _

theorem cut_arg_length : cut_arg.length = 2147479553 := zero_string_length _

theorem cut_arg_ending_length (x : Byte) : (cut_arg_ending x).length = 2147479553 := by
  rw [cut_arg_ending, List.length_append, zero_string_length]
  rfl

theorem wire_size_single (a : List Byte) : wire_size [a] = 4 + min a.length write_limit := rfl

/-- The size word and the number of bytes behind it, for a single argument. -/
theorem single_arg_fields (a : List Byte) :
    beVal ((wire_frame [a]).take 4) = (4 + (4 + a.length)) % 2 ^ 32 ∧
      ((wire_frame [a]).drop 4).length = 4 + (4 + min a.length write_limit) := by
  rw [wire_frame_take, wire_frame_drop_length, beVal_BE32, args_size_single, wire_size_single]
  exact ⟨rfl, rfl⟩

theorem args_size_replicate (n : Nat) (a : List Byte) :
    args_size (List.replicate n a) = n * (4 + a.length) := by
  induction n with
  | zero => simp [args_size]
  | succ n ih =>
    rw [List.replicate_succ, args_size, ih]
    ring

theorem wire_size_replicate (n : Nat) (a : List Byte) :
    wire_size (List.replicate n a) = n * (4 + min a.length write_limit) := by
  induction n with
  | zero => simp [wire_size]
  | succ n ih =>
    rw [List.replicate_succ, wire_size, ih]
    ring

theorem args_size_wrap_cmd : args_size wrap_cmd = 4294967328 := by
  rw [wrap_cmd, args_size_replicate, zero_string_length]

theorem wire_size_wrap_cmd : wire_size wrap_cmd = 4294967328 := by
  rw [wrap_cmd, wire_size_replicate, zero_string_length]
  rfl

/-- The size word and the number of bytes behind it, for `wrap_cmd`. -/
theorem wrap_cmd_fields :
    beVal ((wire_frame wrap_cmd).take 4) = 36 ∧
      ((wire_frame wrap_cmd).drop 4).length = 4294967332 := by
  rw [wire_frame_take, wire_frame_drop_length, beVal_BE32, args_size_wrap_cmd,
    wire_size_wrap_cmd]
  exact ⟨rfl, rfl⟩

/-- A single argument one byte longer than `write_limit` reaches the stream
without its last byte. -/
theorem wire_frame_cut (p : List Byte) (x : Byte) (hp : p.length = write_limit) :
    wire_frame [p ++ [x]] =
      BE32 (4 + (4 + (write_limit + 1))) ++ BE32 1 ++ (BE32 (write_limit + 1) ++ p) := by
  have htake : (p ++ [x]).take write_limit = p := by
    rw [← hp, List.take_left]
  have hlen : (p ++ [x]).length = write_limit + 1 := by
    rw [List.length_append, hp]
    rfl
  rw [wire_frame, wire_args, wire_args, args_size_single, htake, hlen, List.append_nil]
  rfl

/-! ## Decoding a response buffer -/

theorem readByte_cons (t : Byte) (rest : List Byte) : readByte (t :: rest) 0 = Outcome.ok t := by
  simp [readByte]

theorem readByte_nil : readByte [] 0 = Outcome.outOfBounds 0 := by
  simp [readByte]

theorem bind_ok {α β : Type} (v : α) (f : α → Outcome β) : (Outcome.ok v).bind f = f v := rfl

theorem readBytes_not_thrown (response : List Byte) (off n : Nat) (w : String) :
    readBytes response off n ≠ Outcome.thrown w := by
  unfold readBytes
  split_ifs <;> simp

theorem readBytes_fits (response : List Byte) (off n : Nat) (h : off + n ≤ response.length) :
    readBytes response off n = Outcome.ok ((response.drop off).take n) := by
  unfold readBytes
  split_ifs with h0
  · simp [h0]
  · rfl

theorem readBytes_short (response : List Byte) (off n : Nat) (h0 : n ≠ 0)
    (h : response.length < off + n) :
    readBytes response off n = Outcome.outOfBounds (max off response.length) := by
  unfold readBytes
  rw [if_neg h0, if_neg (by omega)]

theorem readBytes_ok_length (response : List Byte) (off n : Nat) (bs : List Byte)
    (h : readBytes response off n = Outcome.ok bs) : bs.length = n := by
  unfold readBytes at h
  split_ifs at h with h0 h1
  · simp only [Outcome.ok.injEq] at h
    simp [← h, h0]
  · simp only [Outcome.ok.injEq] at h
    rw [← h, List.length_take, List.length_drop]
    omega

/-- What `get` does on a buffer, by cases on the first byte. -/
theorem get_of_response_cons (e : Endian) (t : Byte) (rest : List Byte) :
    get_of_response e (t :: rest) =
      if t = TAG_NIL then Outcome.ok []
      else if t ≠ TAG_STR then Outcome.thrown unexpected_response_type
      else if rest.length < 4 then Outcome.outOfBounds (rest.length + 1)
      else readBytes (t :: rest) 5 (declared_length (t :: rest)) := by
  unfold get_of_response
  simp only [readByte_cons, bind_ok]
  split_ifs with h1 h2 h3
  · rfl
  · rfl
  · rw [readBytes_short _ 1 4 (by decide) (by simp only [List.length_cons]; omega)]
    simp only [Outcome.bind, List.length_cons]
    congr 1
    omega
  · rw [readBytes_fits _ 1 4 (by simp only [List.length_cons]; omega)]
    simp only [bind_ok]
    rw [ntohl_fromMem]
    · rfl
    · simp only [List.drop_succ_cons, List.drop_zero, List.length_take]
      omega

theorem bind_int_of_response {α : Type} (e : Endian) (response : List Byte) (f : Nat → α) :
    ((int_of_response e response).bind fun v => Outcome.ok (f v)) =
      (readByte response 0).bind fun t0 =>
      if t0 ≠ TAG_INT then Outcome.thrown unexpected_response_type
      else (readBytes response 1 8).bind fun raw => Outcome.ok (f (ntohll e (fromMem e raw))) := by
  unfold int_of_response
  cases readByte response 0 with
  | ok t =>
    simp only [bind_ok]
    split_ifs
    · rfl
    · cases readBytes response 1 8 <;> rfl
  | thrown w => rfl
  | outOfBounds i => rfl
  | indeterminate => rfl

theorem del_of_response_eq (e : Endian) (response : List Byte) :
    del_of_response e response =
      (int_of_response e response).bind fun v => Outcome.ok (decide (v = 1)) := by
  rw [bind_int_of_response]
  rfl

theorem zadd_of_response_eq (e : Endian) (response : List Byte) :
    zadd_of_response e response =
      (int_of_response e response).bind fun v => Outcome.ok (decide (v = 1)) := by
  rw [bind_int_of_response]
  rfl

theorem zrem_of_response_eq (e : Endian) (response : List Byte) :
    zrem_of_response e response =
      (int_of_response e response).bind fun v => Outcome.ok (decide (v = 1)) := by
  rw [bind_int_of_response]
  rfl

theorem pttl_of_response_eq (e : Endian) (response : List Byte) :
    pttl_of_response e response =
      (int_of_response e response).bind fun v => Outcome.ok (toInt64 v) := by
  rw [bind_int_of_response]
  rfl

/-- What `del`, `pttl`, `zadd` and `zrem` compute on a buffer, by cases on the
first byte. -/
theorem int_of_response_cons (e : Endian) (t : Byte) (rest : List Byte) :
    int_of_response e (t :: rest) =
      if t ≠ TAG_INT then Outcome.thrown unexpected_response_type
      else if rest.length < 8 then Outcome.outOfBounds (rest.length + 1)
      else Outcome.ok (beVal (rest.take 8)) := by
  unfold int_of_response
  simp only [readByte_cons, bind_ok]
  split_ifs with h1 h2
  · rfl
  · rw [readBytes_short _ 1 8 (by decide) (by simp only [List.length_cons]; omega)]
    simp only [Outcome.bind, List.length_cons]
    congr 1
    omega
  · rw [readBytes_fits _ 1 8 (by simp only [List.length_cons]; omega)]
    simp only [bind_ok, List.drop_succ_cons, List.drop_zero]
    rw [ntohll_fromMem]
    simp only [List.length_take]
    omega

/-- What `zscore` does on a buffer, by cases on the first byte. -/
theorem zscore_of_response_cons (t : Byte) (rest : List Byte) :
    zscore_of_response (t :: rest) =
      if t = TAG_NIL then Outcome.ok double_zero
      else if t ≠ TAG_DBL then Outcome.thrown unexpected_response_type
      else if rest.length < 8 then Outcome.outOfBounds (rest.length + 1)
      else Outcome.ok (rest.take 8) := by
  unfold zscore_of_response
  simp only [readByte_cons, bind_ok]
  split_ifs with h1 h2 h3
  · rfl
  · rfl
  · rw [readBytes_short _ 1 8 (by decide) (by simp only [List.length_cons]; omega)]
    simp only [List.length_cons]
    congr 1
    omega
  · rw [readBytes_fits _ 1 8 (by simp only [List.length_cons]; omega)]
    simp only [List.drop_succ_cons, List.drop_zero]

theorem bool_of_int_cons (e : Endian) (t : Byte) (rest : List Byte) :
    ((int_of_response e (t :: rest)).bind fun v => Outcome.ok (decide (v = 1))) =
      if t ≠ TAG_INT then Outcome.thrown unexpected_response_type
      else if rest.length < 8 then Outcome.outOfBounds (rest.length + 1)
      else Outcome.ok (decide (beVal (rest.take 8) = 1)) := by
  rw [int_of_response_cons]
  split_ifs <;> rfl

theorem pttl_of_response_cons (e : Endian) (t : Byte) (rest : List Byte) :
    pttl_of_response e (t :: rest) =
      if t ≠ TAG_INT then Outcome.thrown unexpected_response_type
      else if rest.length < 8 then Outcome.outOfBounds (rest.length + 1)
      else Outcome.ok (toInt64 (beVal (rest.take 8))) := by
  rw [pttl_of_response_eq, int_of_response_cons]
  split_ifs <;> rfl

theorem high_tag_ne (t : Byte) (h : 5 < t.val) :
    t ≠ TAG_NIL ∧ t ≠ TAG_STR ∧ t ≠ TAG_INT ∧ t ≠ TAG_DBL := by
  refine ⟨?_, ?_, ?_, ?_⟩ <;>
  · intro h1
    rw [h1] at h
    revert h
    decide

theorem beInt64_eq_one (p : List Byte) (hp : p.length = 8) : beInt64 p = 1 ↔ beVal p = 1 := by
  have hlt := beVal_lt p
  rw [hp] at hlt
  have h64 : (256 : Nat) ^ 8 = 18446744073709551616 := by norm_num
  rw [h64] at hlt
  unfold beInt64
  split_ifs with h
  · omega
  · constructor
    · intro h1
      omega
    · intro h1
      rw [h1] at h
      exact absurd (by norm_num) h

theorem declared_length_str (t : Byte) (L : Nat) (payload : List Byte) (h : L < 2 ^ 32) :
    declared_length (t :: (BE32 L ++ payload)) = L := by
  have h1 : ((t :: (BE32 L ++ payload)).drop 1).take 4 = BE32 L := rfl
  rw [declared_length, h1, beVal_BE32, Nat.mod_eq_of_lt h]

theorem get_of_str (e : Endian) (L : Nat) (payload : List Byte) (h : L < 2 ^ 32) :
    get_of_response e (TAG_STR :: (BE32 L ++ payload)) =
      readBytes (TAG_STR :: (BE32 L ++ payload)) 5 L := by
  rw [get_of_response_cons, declared_length_str _ _ _ h]
  have hlen : ¬ (BE32 L ++ payload).length < 4 := by
    rw [List.length_append, BE32_length]
    omega
  rw [if_neg (by decide), if_neg (by simp), if_neg hlen]

/-- A tag that no value-returning operation accepts makes all six of them throw
"Unexpected response type". -/
theorem all_throw_on_foreign_tag (e : Endian) (t : Byte) (rest : List Byte)
    (h0 : t ≠ TAG_NIL) (h2 : t ≠ TAG_STR) (h3 : t ≠ TAG_INT) (h4 : t ≠ TAG_DBL) :
    get_of_response e (t :: rest) = Outcome.thrown unexpected_response_type ∧
      del_of_response e (t :: rest) = Outcome.thrown unexpected_response_type ∧
      pttl_of_response e (t :: rest) = Outcome.thrown unexpected_response_type ∧
      zadd_of_response e (t :: rest) = Outcome.thrown unexpected_response_type ∧
      zrem_of_response e (t :: rest) = Outcome.thrown unexpected_response_type ∧
      zscore_of_response (t :: rest) = Outcome.thrown unexpected_response_type := by
  have hbool : ((int_of_response e (t :: rest)).bind fun v => Outcome.ok (decide (v = 1))) =
      Outcome.thrown unexpected_response_type := by
    rw [bool_of_int_cons, if_pos h3]
  rw [del_of_response_eq, zadd_of_response_eq, zrem_of_response_eq]
  refine ⟨?_, hbool, ?_, hbool, hbool, ?_⟩
  · rw [get_of_response_cons, if_neg h0, if_pos h2]
  · rw [pttl_of_response_cons, if_pos h3]
  · rw [zscore_of_response_cons, if_neg h0, if_pos h4]

/-- The empty buffer: every value-returning operation reads index 0. -/
theorem empty_buffer_outcomes (e : Endian) :
    get_of_response e [] = Outcome.outOfBounds 0 ∧
      del_of_response e [] = Outcome.outOfBounds 0 ∧
      pttl_of_response e [] = Outcome.outOfBounds 0 ∧
      zadd_of_response e [] = Outcome.outOfBounds 0 ∧
      zrem_of_response e [] = Outcome.outOfBounds 0 ∧
      zscore_of_response [] = Outcome.outOfBounds 0 := by
  simp [get_of_response, del_of_response, pttl_of_response, zadd_of_response, zrem_of_response,
    zscore_of_response, readByte_nil, Outcome.bind]

theorem readBytes_in_bounds_iff (response : List Byte) (off n : Nat) :
    (∀ i, readBytes response off n ≠ Outcome.outOfBounds i) ↔
      (n = 0 ∨ off + n ≤ response.length) := by
  unfold readBytes
  split_ifs with h0 h1
  · simp [h0]
  · simp [h1]
  · simp [h0, h1]

theorem head_cons_eq (t v : Byte) (rest : List Byte) :
    (t :: rest).head? = some v ↔ t = v := by
  simp

theorem get_in_bounds_iff (e : Endian) (buf : List Byte) :
    (∀ i, get_of_response e buf ≠ Outcome.outOfBounds i) ↔
      (buf ≠ [] ∧ (buf.head? = some 2 → 5 + declared_length buf ≤ buf.length)) := by
  cases buf with
  | nil =>
    have h := (empty_buffer_outcomes e).1
    constructor
    · intro hall
      exact absurd h (hall 0)
    · intro hr
      exact absurd rfl hr.1
  | cons t rest =>
    rw [get_of_response_cons, head_cons_eq, List.length_cons]
    by_cases h1 : t = TAG_NIL
    · rw [if_pos h1]
      constructor
      · intro _
        refine ⟨List.cons_ne_nil _ _, ?_⟩
        intro ht
        rw [ht] at h1
        exact absurd h1 (by decide)
      · intro _ i hi
        cases hi
    · rw [if_neg h1]
      by_cases h2 : t = TAG_STR
      · rw [if_neg (not_not.mpr h2)]
        by_cases h3 : rest.length < 4
        · rw [if_pos h3]
          constructor
          · intro hall
            exact absurd rfl (hall (rest.length + 1))
          · intro hr
            have := hr.2 h2
            omega
        · rw [if_neg h3, readBytes_in_bounds_iff, List.length_cons]
          constructor
          · intro hor
            refine ⟨List.cons_ne_nil _ _, ?_⟩
            intro _
            omega
          · intro hr
            exact Or.inr (hr.2 h2)
      · rw [if_pos h2]
        constructor
        · intro _
          exact ⟨List.cons_ne_nil _ _, fun ht => absurd ht h2⟩
        · intro _ i hi
          cases hi

theorem int_in_bounds_iff {α : Type} (e : Endian) (buf : List Byte) (f : Nat → α) :
    (∀ i, ((int_of_response e buf).bind fun v => Outcome.ok (f v)) ≠ Outcome.outOfBounds i) ↔
      (buf ≠ [] ∧ (buf.head? = some 3 → 9 ≤ buf.length)) := by
  cases buf with
  | nil =>
    have h : ((int_of_response e []).bind fun v => Outcome.ok (f v)) = Outcome.outOfBounds 0 := by
      simp [int_of_response, readByte_nil, Outcome.bind]
    constructor
    · intro hall
      exact absurd h (hall 0)
    · intro hr
      exact absurd rfl hr.1
  | cons t rest =>
    rw [int_of_response_cons, head_cons_eq, List.length_cons]
    by_cases h1 : t = TAG_INT
    · rw [if_neg (not_not.mpr h1)]
      by_cases h2 : rest.length < 8
      · rw [if_pos h2]
        constructor
        · intro hall
          exact absurd rfl (hall (rest.length + 1))
        · intro hr
          have := hr.2 h1
          omega
      · rw [if_neg h2]
        constructor
        · intro _
          refine ⟨List.cons_ne_nil _ _, ?_⟩
          intro _
          omega
        · intro _ i hi
          cases hi
    · rw [if_pos h1]
      constructor
      · intro _
        exact ⟨List.cons_ne_nil _ _, fun ht => absurd ht h1⟩
      · intro _ i hi
        cases hi

theorem zscore_in_bounds_iff (buf : List Byte) :
    (∀ i, zscore_of_response buf ≠ Outcome.outOfBounds i) ↔
      (buf ≠ [] ∧ (buf.head? = some 4 → 9 ≤ buf.length)) := by
  cases buf with
  | nil =>
    have h : zscore_of_response [] = Outcome.outOfBounds 0 := by
      simp [zscore_of_response, readByte_nil, Outcome.bind]
    constructor
    · intro hall
      exact absurd h (hall 0)
    · intro hr
      exact absurd rfl hr.1
  | cons t rest =>
    rw [zscore_of_response_cons, head_cons_eq, List.length_cons]
    by_cases h1 : t = TAG_NIL
    · rw [if_pos h1]
      constructor
      · intro _
        refine ⟨List.cons_ne_nil _ _, ?_⟩
        intro ht
        rw [ht] at h1
        exact absurd h1 (by decide)
      · intro _ i hi
        cases hi
    · rw [if_neg h1]
      by_cases h2 : t = TAG_DBL
      · rw [if_neg (not_not.mpr h2)]
        by_cases h3 : rest.length < 8
        · rw [if_pos h3]
          constructor
          · intro hall
            exact absurd rfl (hall (rest.length + 1))
          · intro hr
            have := hr.2 h2
            omega
        · rw [if_neg h3]
          constructor
          · intro _
            refine ⟨List.cons_ne_nil _ _, ?_⟩
            intro _
            omega
          · intro _ i hi
            cases hi
      · rw [if_pos h2]
        constructor
        · intro _
          exact ⟨List.cons_ne_nil _ _, fun ht => absurd ht h2⟩
        · intro _ i hi
          cases hi

theorem bool_of_int_payload (e : Endian) (p : List Byte) (hp : p.length = 8) :
    ((int_of_response e (3 :: p)).bind fun v => Outcome.ok (decide (v = 1))) =
      Outcome.ok (decide (beInt64 p = 1)) := by
  rw [bool_of_int_cons, if_neg (by decide), if_neg (by omega), List.take_of_length_le (by omega)]
  congr 1
  exact decide_eq_decide.mpr (beInt64_eq_one p hp).symm

/-! ## The operations as one exchange -/

theorem read_response_sent (e : Endian) (c : Conn) : (read_response e c).2.sent = c.sent := by
  unfold read_response
  by_cases h : (sock_read 4 c.incoming).1.length = 4
  · simp only [if_pos h]
  · simp only [if_neg h]

/-- An operation writes what `send_command` writes for its command and nothing
else. -/
theorem exchange_sent {α : Type} (e : Endian) (cmd : List (List Byte))
    (k : List Byte → Outcome α) (c : Conn) :
    (exchange e cmd k c).2.sent = c.sent ++ wire_frame cmd := by
  simp only [exchange, read_response_sent, send_command_sent]

/-- C1 (as amended): whenever `4 + Σ (4 + len(arg_i))` is below `2 ^ 32` and no
argument is longer than `write_limit` (0x7ffff000 bytes, what one `write`
transfers), the bytes `send_command` writes begin with a 4-byte big-endian
`total_size` field whose value is exactly the number of bytes written after
it. -/
theorem total_size_counts_remainder (e : Endian) (cmd : List (List Byte)) (c : Conn)
    (h : 4 + args_size cmd < 2 ^ 32) (hw : ∀ a ∈ cmd, a.length ≤ write_limit) :
    ((bytes_written e cmd c).take 4).length = 4 ∧
      beVal ((bytes_written e cmd c).take 4) = ((bytes_written e cmd c).drop 4).length := by
  rw [bytes_written_eq, wire_frame_whole cmd hw, frame_layout_take, frame_layout_drop_length,
    beVal_BE32, Nat.mod_eq_of_lt h]
  exact ⟨BE32_length _, rfl⟩

/-- Witness for C1 (as amended): the frame of `get k`. -/
theorem total_size_counts_remainder_witness :
    4 + args_size [verb_get, [107]] < 2 ^ 32 ∧
      (∀ a ∈ [verb_get, [107]], a.length ≤ write_limit) ∧
      ((bytes_written Endian.little [verb_get, [107]] ⟨[], []⟩).take 4).length = 4 ∧
      beVal ((bytes_written Endian.little [verb_get, [107]] ⟨[], []⟩).take 4) =
        ((bytes_written Endian.little [verb_get, [107]] ⟨[], []⟩).drop 4).length :=
  ⟨by decide, by decide,
    total_size_counts_remainder Endian.little [verb_get, [107]] ⟨[], []⟩ (by decide)
      (by decide)⟩

/-- C1 (counterexample): for the single argument of 0x7ffff001 bytes the
`total_size` field reads 2147479561 and 2147479560 bytes follow it, the last
byte of the argument not being written; for the single argument of `2 ^ 32`
bytes the field reads 8 and 2147479560 bytes follow; for eight arguments of
`2 ^ 29` bytes, all written whole, the field reads 36 and 4294967332 bytes
follow. -/
theorem total_size_differs_from_remainder :
    (beVal ((bytes_written Endian.little [cut_arg] ⟨[], []⟩).take 4) = 2147479561 ∧
        ((bytes_written Endian.little [cut_arg] ⟨[], []⟩).drop 4).length = 2147479560) ∧
      (beVal ((bytes_written Endian.little [huge_arg] ⟨[], []⟩).take 4) = 8 ∧
        ((bytes_written Endian.little [huge_arg] ⟨[], []⟩).drop 4).length = 2147479560) ∧
      (beVal ((bytes_written Endian.little wrap_cmd ⟨[], []⟩).take 4) = 36 ∧
        ((bytes_written Endian.little wrap_cmd ⟨[], []⟩).drop 4).length = 4294967332) := by
  rw [bytes_written_eq, bytes_written_eq, bytes_written_eq]
  have h1 := single_arg_fields cut_arg
  have h2 := single_arg_fields huge_arg
  rw [cut_arg_length] at h1
  rw [huge_arg_length] at h2
  exact ⟨h1, h2, wrap_cmd_fields⟩

/-- C2 (as amended): for every command with `4 + Σ (4 + len(a_i))` below
`2 ^ 32` and no argument longer than `write_limit` (0x7ffff000 bytes, what one
`write` transfers), on either host byte order and whatever was written before,
`send_command` appends to the stream exactly
`BE32(4 + Σ (4 + len(a_i))) ++ BE32(n) ++ BE32(len(a_1)) ++ a_1 ++ ... ++
BE32(len(a_n)) ++ a_n`, the arguments in their original order; every one of
these words is the 4-byte big-endian encoding of its value, which reads back
unchanged. -/
theorem send_command_writes_frame_layout (e : Endian) (cmd : List (List Byte)) (c : Conn)
    (h : 4 + args_size cmd < 2 ^ 32) (hw : ∀ a ∈ cmd, a.length ≤ write_limit) :
    (send_command e cmd c).sent = c.sent ++ frame_layout cmd ∧
      bytes_written e cmd c = frame_layout cmd ∧
      beVal (BE32 (4 + args_size cmd)) = 4 + args_size cmd ∧
      beVal (BE32 cmd.length) = cmd.length ∧
      ∀ a ∈ cmd, beVal (BE32 a.length) = a.length := by
  have hcount := args_size_count cmd
  refine ⟨?_, ?_, ?_, ?_, ?_⟩
  · rw [send_command_sent, wire_frame_whole cmd hw]
  · rw [bytes_written_eq, wire_frame_whole cmd hw]
  · rw [beVal_BE32, Nat.mod_eq_of_lt h]
  · rw [beVal_BE32, Nat.mod_eq_of_lt (by omega)]
  · intro a ha
    have := args_size_mem cmd a ha
    rw [beVal_BE32, Nat.mod_eq_of_lt (by omega)]

/-- Witness for C2 (as amended): the frame of `set k v` with an empty value. -/
theorem send_command_writes_frame_layout_witness :
    4 + args_size [verb_set, [107], []] < 2 ^ 32 ∧
      (∀ a ∈ [verb_set, [107], []], a.length ≤ write_limit) ∧
      bytes_written Endian.little [verb_set, [107], []] ⟨[], []⟩ =
        frame_layout [verb_set, [107], []] :=
  ⟨by decide, by decide,
    (send_command_writes_frame_layout Endian.little [verb_set, [107], []] ⟨[], []⟩
      (by decide) (by decide)).2.1⟩

/-- C2 (counterexample): for the single argument of 0x7ffff001 bytes
`send_command` writes 2147479564 bytes while the layout has 2147479565, the last
byte of the argument not being written; and for eight arguments of `2 ^ 29`
bytes the first word written reads 36 while `4 + Σ (4 + len(a_i))` is
4294967332. -/
theorem send_command_misses_layout :
    (bytes_written Endian.little [cut_arg] ⟨[], []⟩).length = 2147479564 ∧
      (frame_layout [cut_arg]).length = 2147479565 ∧
      bytes_written Endian.little [cut_arg] ⟨[], []⟩ ≠ frame_layout [cut_arg] ∧
      beVal ((bytes_written Endian.little wrap_cmd ⟨[], []⟩).take 4) = 36 ∧
      4 + args_size wrap_cmd = 4294967332 := by
  have hw : (bytes_written Endian.little [cut_arg] ⟨[], []⟩).length = 2147479564 := by
    rw [bytes_written_eq, wire_frame, List.length_append, List.length_append, BE32_length,
      BE32_length, wire_args_length, wire_size_single, cut_arg_length]
    rfl
  have hf : (frame_layout [cut_arg]).length = 2147479565 := by
    rw [frame_layout_length, args_size_single, cut_arg_length]
  refine ⟨hw, hf, ?_, ?_, ?_⟩
  · intro heq
    rw [heq, hf] at hw
    exact absurd hw (by decide)
  · rw [bytes_written_eq]
    exact wrap_cmd_fields.1
  · rw [args_size_wrap_cmd]

/-- C3 (as amended): for every argument sequence with `4 + Σ (4 + len(arg_i))`
below `2 ^ 32` and no argument longer than `write_limit` (empty strings and
arbitrary bytes included), parsing the bytes `send_command` writes according to
the wire layout gives back exactly that sequence, and no other command whose
arguments are within `write_limit` produces the same bytes. -/
theorem frame_roundtrip (e : Endian) (cmd : List (List Byte)) (c : Conn)
    (h : 4 + args_size cmd < 2 ^ 32) (hw : ∀ a ∈ cmd, a.length ≤ write_limit) :
    parse_frame (bytes_written e cmd c) = some cmd ∧
      ∀ (e2 : Endian) (cmd2 : List (List Byte)) (c2 : Conn),
        (∀ a ∈ cmd2, a.length ≤ write_limit) →
        bytes_written e2 cmd2 c2 = bytes_written e cmd c → cmd2 = cmd := by
  constructor
  · rw [bytes_written_eq, wire_frame_whole cmd hw]
    exact parse_frame_layout cmd h
  · intro e2 cmd2 c2 hw2 heq
    rw [bytes_written_eq, bytes_written_eq, wire_frame_whole cmd hw,
      wire_frame_whole cmd2 hw2] at heq
    have hlen := congrArg List.length heq
    rw [frame_layout_length, frame_layout_length] at hlen
    have h2 : 4 + args_size cmd2 < 2 ^ 32 := by omega
    have hp := parse_frame_layout cmd2 h2
    rw [heq, parse_frame_layout cmd h] at hp
    exact (Option.some.inj hp).symm

/-- Witness for C3 (as amended): a command with an empty argument and a NUL
byte. -/
theorem frame_roundtrip_witness :
    4 + args_size [verb_set, [], [0, 255]] < 2 ^ 32 ∧
      (∀ a ∈ [verb_set, [], [0, 255]], a.length ≤ write_limit) ∧
      parse_frame (bytes_written Endian.big [verb_set, [], [0, 255]] ⟨[], []⟩)
        = some [verb_set, [], [0, 255]] :=
  ⟨by decide, by decide,
    (frame_roundtrip Endian.big [verb_set, [], [0, 255]] ⟨[], []⟩ (by decide) (by decide)).1⟩

/-- C3 (counterexample): the two commands whose single argument is 0x7ffff000
zero bytes followed by the byte 0, respectively by the byte 1, differ and are
written as the same bytes, which do not parse (the size word announces one byte
more than follows); the bytes written for the single argument of `2 ^ 32` zero
bytes parse to one empty argument; the bytes written for eight arguments of
`2 ^ 29` bytes do not parse to that command. -/
theorem roundtrip_fails_beyond_limits :
    (bytes_written Endian.little [cut_arg_ending 0] ⟨[], []⟩ =
        bytes_written Endian.little [cut_arg_ending 1] ⟨[], []⟩ ∧
      [cut_arg_ending 0] ≠ [cut_arg_ending 1] ∧
      parse_frame (bytes_written Endian.little [cut_arg_ending 0] ⟨[], []⟩)
        ≠ some [cut_arg_ending 0]) ∧
      (parse_frame (bytes_written Endian.little [huge_arg] ⟨[], []⟩) = some [[]] ∧
        parse_frame (bytes_written Endian.little [huge_arg] ⟨[], []⟩) ≠ some [huge_arg]) ∧
      parse_frame (bytes_written Endian.little wrap_cmd ⟨[], []⟩) ≠ some wrap_cmd := by
  have hz : (zero_string 2147479552).length = write_limit := zero_string_length _
  have hp := parse_wire_wraps huge_arg huge_arg_length
  have hne : huge_arg ≠ [] := by
    intro h0
    have hl := congrArg List.length h0
    rw [huge_arg_length] at hl
    exact absurd hl (by decide)
  refine ⟨⟨?_, ?_, ?_⟩, ⟨?_, ?_⟩, ?_⟩
  · rw [bytes_written_eq, bytes_written_eq, cut_arg_ending, cut_arg_ending,
      wire_frame_cut _ 0 hz, wire_frame_cut _ 1 hz]
  · intro heq
    have h1 := (List.cons.inj heq).1
    rw [cut_arg_ending, cut_arg_ending] at h1
    have h2 := List.append_cancel_left h1
    exact absurd h2 (by decide)
  · intro hparse
    have hsz := parse_frame_size _ _ hparse
    rw [bytes_written_eq] at hsz
    have hf := single_arg_fields (cut_arg_ending 0)
    rw [cut_arg_ending_length] at hf
    rw [hf.1, hf.2] at hsz
    exact absurd hsz.2 (by decide)
  · rw [bytes_written_eq]
    exact hp
  · rw [bytes_written_eq, hp]
    intro h1
    have h2 := Option.some.inj h1
    have h3 := List.cons.inj h2
    exact hne h3.1.symm
  · intro hparse
    have hfit := parse_frame_fits _ _ hparse
    rw [args_size_wrap_cmd] at hfit
    exact absurd hfit (by decide)

/-- C4: for every response buffer `[2] ++ BE32(L) ++ payload` with
`len(payload) ≥ L` (`L` a 32-bit length), `get` returns exactly the first `L`
bytes of `payload`, a string of length `L`. -/
theorem get_returns_declared_bytes (e : Endian) (L : Nat) (payload : List Byte)
    (h32 : L < 2 ^ 32) (hL : L ≤ payload.length) :
    get_of_response e (2 :: (BE32 L ++ payload)) = Outcome.ok (payload.take L) ∧
      (payload.take L).length = L := by
  constructor
  · have h := get_of_str e L payload h32
    rw [readBytes_fits] at h
    · exact h
    · simp only [List.length_cons, List.length_append, BE32_length]
      omega
  · rw [List.length_take]
    omega

/-- Witness for C4: declared length 2, payload `a`, NUL and one byte more. -/
theorem get_returns_declared_bytes_witness :
    (2 : Nat) < 2 ^ 32 ∧ 2 ≤ ([97, 0, 7] : List Byte).length ∧
      get_of_response Endian.little (2 :: (BE32 2 ++ [97, 0, 7])) = Outcome.ok [97, 0] :=
  ⟨by decide, by decide,
    (get_returns_declared_bytes Endian.little 2 [97, 0, 7] (by decide) (by decide)).1⟩

/-- C5: on every non-empty response buffer, `get` fails with "Unexpected
response type" exactly when the tag byte is neither Str (2) nor Nil (0); `del`,
`pttl`, `zadd` and `zrem` exactly when it is not Int (3); `zscore` exactly when
it is neither Dbl (4) nor Nil (0). -/
theorem unexpected_type_iff_tag_mismatch (e : Endian) (t : Byte) (rest : List Byte) :
    (get_of_response e (t :: rest) = Outcome.thrown "Unexpected response type" ↔
        (t ≠ 2 ∧ t ≠ 0)) ∧
      (del_of_response e (t :: rest) = Outcome.thrown "Unexpected response type" ↔ t ≠ 3) ∧
      (pttl_of_response e (t :: rest) = Outcome.thrown "Unexpected response type" ↔ t ≠ 3) ∧
      (zadd_of_response e (t :: rest) = Outcome.thrown "Unexpected response type" ↔ t ≠ 3) ∧
      (zrem_of_response e (t :: rest) = Outcome.thrown "Unexpected response type" ↔ t ≠ 3) ∧
      (zscore_of_response (t :: rest) = Outcome.thrown "Unexpected response type" ↔
        (t ≠ 4 ∧ t ≠ 0)) := by
  have hbool : ((int_of_response e (t :: rest)).bind fun v => Outcome.ok (decide (v = 1))) =
      Outcome.thrown "Unexpected response type" ↔ t ≠ 3 := by
    rw [bool_of_int_cons]
    split_ifs with h1 h2
    · exact ⟨fun _ => h1, fun _ => rfl⟩
    · exact ⟨fun h => (by cases h), fun h => absurd h h1⟩
    · exact ⟨fun h => (by cases h), fun h => absurd h h1⟩
  rw [del_of_response_eq, zadd_of_response_eq, zrem_of_response_eq]
  refine ⟨?_, hbool, ?_, hbool, hbool, ?_⟩
  · rw [get_of_response_cons]
    split_ifs with h1 h2 h3
    · exact ⟨fun h => (by cases h), fun h => absurd h1 h.2⟩
    · exact ⟨fun _ => ⟨h2, h1⟩, fun _ => rfl⟩
    · exact ⟨fun h => (by cases h), fun h => absurd h.1 h2⟩
    · exact ⟨fun h => absurd h (readBytes_not_thrown _ _ _ _), fun h => absurd h.1 h2⟩
  · rw [pttl_of_response_cons]
    split_ifs with h1 h2
    · exact ⟨fun _ => h1, fun _ => rfl⟩
    · exact ⟨fun h => (by cases h), fun h => absurd h h1⟩
    · exact ⟨fun h => (by cases h), fun h => absurd h h1⟩
  · rw [zscore_of_response_cons]
    split_ifs with h1 h2 h3
    · exact ⟨fun h => (by cases h), fun h => absurd h1 h.2⟩
    · exact ⟨fun _ => ⟨h2, h1⟩, fun _ => rfl⟩
    · exact ⟨fun h => (by cases h), fun h => absurd h.1 h2⟩
    · exact ⟨fun h => (by cases h), fun h => absurd h.1 h2⟩

/-- C6 (as amended): for every response whose tag byte is outside 0..5, each of
`get`, `del`, `pttl`, `zadd`, `zrem` and `zscore` is rejected with the error
"Unexpected response type"; `set` and `pexpire` do not look at the response and
return normally. -/
theorem unknown_tag_outcomes (e : Endian) (t : Byte) (rest : List Byte) (h : 5 < t.val) :
    (get_of_response e (t :: rest) = Outcome.thrown "Unexpected response type" ∧
      del_of_response e (t :: rest) = Outcome.thrown "Unexpected response type" ∧
      pttl_of_response e (t :: rest) = Outcome.thrown "Unexpected response type" ∧
      zadd_of_response e (t :: rest) = Outcome.thrown "Unexpected response type" ∧
      zrem_of_response e (t :: rest) = Outcome.thrown "Unexpected response type" ∧
      zscore_of_response (t :: rest) = Outcome.thrown "Unexpected response type") ∧
      set_of_response (t :: rest) = Outcome.ok () ∧
      pexpire_of_response (t :: rest) = Outcome.ok () := by
  obtain ⟨h0, h2, h3, h4⟩ := high_tag_ne t h
  exact ⟨all_throw_on_foreign_tag e t rest h0 h2 h3 h4, rfl, rfl⟩

/-- Witness for C6 (as amended): the one-byte response with tag 99. -/
theorem unknown_tag_outcomes_witness :
    5 < (99 : Byte).val ∧
      get_of_response Endian.little [99] = Outcome.thrown "Unexpected response type" ∧
      pexpire_of_response [99] = Outcome.ok () :=
  ⟨by decide, (unknown_tag_outcomes Endian.little 99 [] (by decide)).1.1,
    (unknown_tag_outcomes Endian.little 99 [] (by decide)).2.2⟩

/-- C6 (counterexample): on the response with tag byte 99 `set` completes
successfully, and so does `pexpire`. -/
theorem set_accepts_unknown_tag :
    set_of_response [99] = Outcome.ok () ∧ pexpire_of_response [99] = Outcome.ok () ∧
      (set Endian.little [107] [118] ⟨[], [[0, 0, 0, 1], [99]]⟩).1 = Outcome.ok () ∧
      (pexpire Endian.little [107] 5000 ⟨[], [[0, 0, 0, 1], [99]]⟩).1 = Outcome.ok () := by
  decide

/-- C7 (as amended): for every Error response `[1] ++ BE32(L) ++ msg`, each of
`get`, `del`, `pttl`, `zadd`, `zrem` and `zscore` fails with the fixed error
"Unexpected response type", whatever `msg` is; `set` and `pexpire` do not look
at the response and return normally. -/
theorem error_response_outcomes (e : Endian) (L : Nat) (msg : List Byte) :
    (get_of_response e (1 :: (BE32 L ++ msg)) = Outcome.thrown "Unexpected response type" ∧
      del_of_response e (1 :: (BE32 L ++ msg)) = Outcome.thrown "Unexpected response type" ∧
      pttl_of_response e (1 :: (BE32 L ++ msg)) = Outcome.thrown "Unexpected response type" ∧
      zadd_of_response e (1 :: (BE32 L ++ msg)) = Outcome.thrown "Unexpected response type" ∧
      zrem_of_response e (1 :: (BE32 L ++ msg)) = Outcome.thrown "Unexpected response type" ∧
      zscore_of_response (1 :: (BE32 L ++ msg)) = Outcome.thrown "Unexpected response type") ∧
      set_of_response (1 :: (BE32 L ++ msg)) = Outcome.ok () ∧
      pexpire_of_response (1 :: (BE32 L ++ msg)) = Outcome.ok () :=
  ⟨all_throw_on_foreign_tag e 1 (BE32 L ++ msg) (by decide) (by decide) (by decide) (by decide),
    rfl, rfl⟩

/-- C7 (counterexample): on the Error response carrying the message `X`, `set`
returns normally, and `get` throws "Unexpected response type", a text in which
the server's message does not occur. -/
theorem server_error_not_surfaced :
    set_of_response (1 :: (BE32 1 ++ [88])) = Outcome.ok () ∧
      (set Endian.little [107] [118] ⟨[], [[0, 0, 0, 6], 1 :: (BE32 1 ++ [88])]⟩).1
        = Outcome.ok () ∧
      get_of_response Endian.little (1 :: (BE32 1 ++ [88]))
        = Outcome.thrown "Unexpected response type" ∧
      (88 : Nat) ∉ "Unexpected response type".toList.map Char.toNat := by
  decide

/-- C8 (as amended): for every response buffer `[2] ++ BE32(L) ++ payload` in
which `L` exceeds `len(payload)`, `get` throws no error: it copies `L` bytes from
index 5 without a bounds check, and that copy reaches index `5 + len(payload)`,
the first one outside the buffer. -/
theorem get_overruns_short_payload (e : Endian) (L : Nat) (payload : List Byte)
    (h32 : L < 2 ^ 32) (h : payload.length < L) :
    get_of_response e (2 :: (BE32 L ++ payload)) = Outcome.outOfBounds (5 + payload.length) ∧
      (2 :: (BE32 L ++ payload)).length = 5 + payload.length ∧
      ∀ w, get_of_response e (2 :: (BE32 L ++ payload)) ≠ Outcome.thrown w := by
  have hlen : (TAG_STR :: (BE32 L ++ payload)).length = 5 + payload.length := by
    simp only [List.length_cons, List.length_append, BE32_length]
    omega
  have hget := get_of_str e L payload h32
  rw [readBytes_short _ 5 L (by omega) (by omega), hlen, max_eq_right (by omega)] at hget
  refine ⟨hget, hlen, ?_⟩
  intro w hw
  have hw2 : get_of_response e (TAG_STR :: (BE32 L ++ payload)) = Outcome.thrown w := hw
  rw [hget] at hw2
  cases hw2

/-- Witness for C8 (as amended): declared length 5, one byte of payload. -/
theorem get_overruns_short_payload_witness :
    (5 : Nat) < 2 ^ 32 ∧ ([97] : List Byte).length < 5 ∧
      get_of_response Endian.little (2 :: (BE32 5 ++ [97])) = Outcome.outOfBounds 6 :=
  ⟨by decide, by decide,
    (get_overruns_short_payload Endian.little 5 [97] (by decide) (by decide)).1⟩

/-- C8 (counterexample): on `[2, 0, 0, 0, 5, 97]` (declared length 5, one byte
present) `get` throws nothing; its copy runs to index 6 of a 6-byte buffer. -/
theorem get_no_truncation_error :
    get_of_response Endian.little [2, 0, 0, 0, 5, 97] = Outcome.outOfBounds 6 ∧
      ¬ ∃ w, get_of_response Endian.little [2, 0, 0, 0, 5, 97] = Outcome.thrown w := by
  have h : get_of_response Endian.little [2, 0, 0, 0, 5, 97] = Outcome.outOfBounds 6 := by
    decide
  refine ⟨h, ?_⟩
  rintro ⟨w, hw⟩
  rw [h] at hw
  cases hw

/-- C9 (as amended): the operations carry no bounds check, and every byte a
value-returning operation reads lies below the buffer's length exactly when the
buffer is non-empty and, if its tag is the one the operation expects, holds the
whole value: `5 + L` bytes for `get` on a Str buffer declaring length `L`, 9
bytes for `del`, `pttl`, `zadd`, `zrem` on an Int buffer and for `zscore` on a
Dbl buffer. -/
theorem reads_in_bounds_iff (e : Endian) (buf : List Byte) :
    ((∀ i, get_of_response e buf ≠ Outcome.outOfBounds i) ↔
        (buf ≠ [] ∧ (buf.head? = some 2 → 5 + declared_length buf ≤ buf.length))) ∧
      ((∀ i, del_of_response e buf ≠ Outcome.outOfBounds i) ↔
        (buf ≠ [] ∧ (buf.head? = some 3 → 9 ≤ buf.length))) ∧
      ((∀ i, pttl_of_response e buf ≠ Outcome.outOfBounds i) ↔
        (buf ≠ [] ∧ (buf.head? = some 3 → 9 ≤ buf.length))) ∧
      ((∀ i, zadd_of_response e buf ≠ Outcome.outOfBounds i) ↔
        (buf ≠ [] ∧ (buf.head? = some 3 → 9 ≤ buf.length))) ∧
      ((∀ i, zrem_of_response e buf ≠ Outcome.outOfBounds i) ↔
        (buf ≠ [] ∧ (buf.head? = some 3 → 9 ≤ buf.length))) ∧
      ((∀ i, zscore_of_response buf ≠ Outcome.outOfBounds i) ↔
        (buf ≠ [] ∧ (buf.head? = some 4 → 9 ≤ buf.length))) := by
  rw [del_of_response_eq, pttl_of_response_eq, zadd_of_response_eq, zrem_of_response_eq]
  exact ⟨get_in_bounds_iff e buf, int_in_bounds_iff e buf _, int_in_bounds_iff e buf _,
    int_in_bounds_iff e buf _, int_in_bounds_iff e buf _, zscore_in_bounds_iff buf⟩

/-- C9 (counterexample): on the empty buffer `get` reads index 0, which is not
below the length 0; so do the other five operations. A Str buffer of 3 bytes
and an Int buffer of 5 bytes are overrun as well. -/
theorem empty_buffer_read_out_of_bounds :
    get_of_response Endian.little [] = Outcome.outOfBounds 0 ∧
      del_of_response Endian.little [] = Outcome.outOfBounds 0 ∧
      pttl_of_response Endian.little [] = Outcome.outOfBounds 0 ∧
      zadd_of_response Endian.little [] = Outcome.outOfBounds 0 ∧
      zrem_of_response Endian.little [] = Outcome.outOfBounds 0 ∧
      zscore_of_response [] = Outcome.outOfBounds 0 ∧
      get_of_response Endian.little [2, 0, 0] = Outcome.outOfBounds 3 ∧
      pttl_of_response Endian.little [3, 0, 0, 0, 1] = Outcome.outOfBounds 5 ∧
      zscore_of_response [4, 0, 0, 0, 1] = Outcome.outOfBounds 5 := by
  decide

/-- C10: for every response `[3] ++ p` with `p` of exactly 8 bytes, each of
`del`, `zadd` and `zrem` returns `true` if `p` read as a big-endian signed
64-bit integer equals 1 and `false` for every other integer. -/
theorem bool_ops_true_iff_one (e : Endian) (p : List Byte) (hp : p.length = 8) :
    del_of_response e (3 :: p) = Outcome.ok (decide (beInt64 p = 1)) ∧
      zadd_of_response e (3 :: p) = Outcome.ok (decide (beInt64 p = 1)) ∧
      zrem_of_response e (3 :: p) = Outcome.ok (decide (beInt64 p = 1)) := by
  rw [del_of_response_eq, zadd_of_response_eq, zrem_of_response_eq]
  exact ⟨bool_of_int_payload e p hp, bool_of_int_payload e p hp, bool_of_int_payload e p hp⟩

/-- Witness for C10: the integers 1, 0, 2 and -1. -/
theorem bool_ops_true_iff_one_witness :
    ([0, 0, 0, 0, 0, 0, 0, 1] : List Byte).length = 8 ∧
      del_of_response Endian.little [3, 0, 0, 0, 0, 0, 0, 0, 1] = Outcome.ok true ∧
      del_of_response Endian.little [3, 0, 0, 0, 0, 0, 0, 0, 0] = Outcome.ok false ∧
      zadd_of_response Endian.big [3, 0, 0, 0, 0, 0, 0, 0, 2] = Outcome.ok false ∧
      zrem_of_response Endian.little [3, 255, 255, 255, 255, 255, 255, 255, 255]
        = Outcome.ok false :=
  ⟨by decide,
    (bool_ops_true_iff_one Endian.little [0, 0, 0, 0, 0, 0, 0, 1] (by decide)).1,
    (bool_ops_true_iff_one Endian.little [0, 0, 0, 0, 0, 0, 0, 0] (by decide)).1,
    (bool_ops_true_iff_one Endian.big [0, 0, 0, 0, 0, 0, 0, 2] (by decide)).2.1,
    (bool_ops_true_iff_one Endian.little [255, 255, 255, 255, 255, 255, 255, 255]
      (by decide)).2.2⟩

/-! ## Integer and double payloads -/

theorem beBytes_eight (u : Nat) :
    beBytes 8 u = [byteOf (u / 2 ^ 56), byteOf (u / 2 ^ 48), byteOf (u / 2 ^ 40),
      byteOf (u / 2 ^ 32), byteOf (u / 2 ^ 24), byteOf (u / 2 ^ 16), byteOf (u / 2 ^ 8),
      byteOf u] := by
  simp only [beBytes, leBytes, List.reverse_cons, List.reverse_nil, List.nil_append,
    List.cons_append, Nat.div_div_eq_div_mul]
  rfl

theorem BE64_eq (v : Int) : BE64 v = beBytes 8 (v % 2 ^ 64).toNat := by
  rw [beBytes_eight]
  rfl

theorem BE64_length (v : Int) : (BE64 v).length = 8 := rfl

theorem toInt64_BE64 (v : Int) (hlo : -2 ^ 63 ≤ v) (hhi : v < 2 ^ 63) :
    toInt64 (beVal (BE64 v)) = v := by
  rw [BE64_eq, beVal_beBytes]
  have h64 : (256 : Nat) ^ 8 = 2 ^ 64 := by norm_num
  rw [h64]
  unfold toInt64
  have hu : ((v % 2 ^ 64).toNat : Int) = v % 2 ^ 64 :=
    Int.toNat_of_nonneg (Int.emod_nonneg v (by norm_num))
  have hlt : (v % 2 ^ 64).toNat < 2 ^ 64 := by omega
  rw [Nat.mod_mod, Nat.mod_eq_of_lt hlt]
  split_ifs with h <;> omega

/-- C11: for every signed 64-bit integer `v`, `pttl` on the response
`[3] ++ BE64(v)` returns exactly `v`, on either host byte order. -/
theorem pttl_returns_encoded_integer (e : Endian) (v : Int)
    (hlo : -2 ^ 63 ≤ v) (hhi : v < 2 ^ 63) :
    pttl_of_response e (3 :: BE64 v) = Outcome.ok v := by
  rw [pttl_of_response_cons, if_neg (by decide), if_neg (by rw [BE64_length]; omega),
    List.take_of_length_le (by rw [BE64_length]), toInt64_BE64 v hlo hhi]

/-- Witness for C11: the integers -1 and 9223372036854775807. -/
theorem pttl_returns_encoded_integer_witness :
    (-2 ^ 63 ≤ (-1 : Int) ∧ (-1 : Int) < 2 ^ 63 ∧
        pttl_of_response Endian.little (3 :: BE64 (-1)) = Outcome.ok (-1)) ∧
      (-2 ^ 63 ≤ (9223372036854775807 : Int) ∧ (9223372036854775807 : Int) < 2 ^ 63 ∧
        pttl_of_response Endian.big (3 :: BE64 9223372036854775807)
          = Outcome.ok 9223372036854775807) :=
  ⟨⟨by decide, by decide,
      pttl_returns_encoded_integer Endian.little (-1) (by decide) (by decide)⟩,
    ⟨by decide, by decide,
      pttl_returns_encoded_integer Endian.big 9223372036854775807 (by decide) (by decide)⟩⟩

/-- C12: for every response whose tag byte is Nil (0), `get` returns the empty
string and `zscore` returns `0.0`, whatever follows the tag; neither throws. -/
theorem nil_gives_sentinel (e : Endian) (rest : List Byte) :
    get_of_response e (0 :: rest) = Outcome.ok [] ∧
      zscore_of_response (0 :: rest) = Outcome.ok double_zero := by
  have h : (0 : Byte) = TAG_NIL := rfl
  rw [get_of_response_cons, zscore_of_response_cons, if_pos h, if_pos h]
  exact ⟨rfl, rfl⟩

/-- C16: the Nil response `[0]` and the Dbl response `[4]` followed by eight
zero bytes are two different responses for which `zscore` returns the same
result, `0.0`. -/
theorem zscore_absent_equals_zero_score :
    ([0] : List Byte) ≠ [4, 0, 0, 0, 0, 0, 0, 0, 0] ∧
      zscore_of_response [0] = Outcome.ok double_zero ∧
      zscore_of_response [4, 0, 0, 0, 0, 0, 0, 0, 0] = Outcome.ok double_zero ∧
      zscore_of_response [0] = zscore_of_response [4, 0, 0, 0, 0, 0, 0, 0, 0] := by
  decide

theorem toInt64_beVal (p : List Byte) (hp : p.length = 8) : toInt64 (beVal p) = beInt64 p := by
  have hlt := beVal_lt p
  rw [hp] at hlt
  have h64 : (256 : Nat) ^ 8 = 2 ^ 64 := by norm_num
  rw [h64] at hlt
  unfold toInt64 beInt64
  rw [Nat.mod_eq_of_lt hlt]

theorem int_of_payload (e : Endian) (p : List Byte) (hp : p.length = 8) :
    int_of_response e (3 :: p) = Outcome.ok (beVal p) := by
  rw [int_of_response_cons, if_neg (by decide), if_neg (by omega),
    List.take_of_length_le (by omega)]

theorem zscore_of_payload (p : List Byte) (hp : p.length = 8) :
    zscore_of_response (4 :: p) = Outcome.ok p := by
  rw [zscore_of_response_cons, if_neg (by decide), if_neg (by decide), if_neg (by omega),
    List.take_of_length_le (by omega)]

theorem toMem_beVal (p : List Byte) (hp : p.length = 8) :
    toMem Endian.little 8 (beVal p) = p.reverse ∧ toMem Endian.big 8 (beVal p) = p := by
  constructor
  · have h := leBytes_leVal p.reverse
    rw [List.length_reverse, hp] at h
    exact h
  · have h := beBytes_beVal p
    rw [hp] at h
    exact h

/-- C17: for every response `[4] ++ p` with `p` of exactly 8 bytes, `zscore`
returns the double whose object representation in host memory is `p` itself,
byte for byte, on either host; the integer that `pttl` (and `del`, `zadd`,
`zrem`) reads from `[3] ++ p` is `p` taken big-endian, so its representation in
the memory of a little-endian host is the reversal of `p`. -/
theorem zscore_copies_payload_unconverted (e : Endian) (p : List Byte) (hp : p.length = 8) :
    zscore_of_response (4 :: p) = Outcome.ok p ∧
      pttl_of_response e (3 :: p) = Outcome.ok (beInt64 p) ∧
      del_of_response e (3 :: p) = Outcome.ok (decide (beVal p = 1)) ∧
      zadd_of_response e (3 :: p) = Outcome.ok (decide (beVal p = 1)) ∧
      zrem_of_response e (3 :: p) = Outcome.ok (decide (beVal p = 1)) ∧
      toMem Endian.little 8 (beVal p) = p.reverse ∧
      toMem Endian.big 8 (beVal p) = p := by
  have hint := int_of_payload e p hp
  refine ⟨zscore_of_payload p hp, ?_, ?_, ?_, ?_, toMem_beVal p hp⟩
  · rw [pttl_of_response_eq, hint, bind_ok, toInt64_beVal p hp]
  · rw [del_of_response_eq, hint, bind_ok]
  · rw [zadd_of_response_eq, hint, bind_ok]
  · rw [zrem_of_response_eq, hint, bind_ok]

/-- Witness for C17: the payload `40 59 00 00 00 00 00 00`, the big-endian image
of the double 100.0, on a little-endian host. -/
theorem zscore_copies_payload_unconverted_witness :
    ([64, 89, 0, 0, 0, 0, 0, 0] : List Byte).length = 8 ∧
      zscore_of_response [4, 64, 89, 0, 0, 0, 0, 0, 0] = Outcome.ok [64, 89, 0, 0, 0, 0, 0, 0] ∧
      toMem Endian.little 8 (beVal [64, 89, 0, 0, 0, 0, 0, 0]) = [0, 0, 0, 0, 0, 0, 89, 64] :=
  ⟨by decide,
    (zscore_copies_payload_unconverted Endian.little [64, 89, 0, 0, 0, 0, 0, 0] (by decide)).1,
    (zscore_copies_payload_unconverted Endian.little [64, 89, 0, 0, 0, 0, 0, 0]
      (by decide)).2.2.2.2.2.1⟩

/-! ## What `get` depends on -/

theorem declared_length_take (b : List Byte) (n : Nat) (h : 5 ≤ n) :
    declared_length (b.take n) = declared_length b := by
  unfold declared_length
  rw [List.drop_take, List.take_take, min_eq_left (by omega)]

theorem head_take (b : List Byte) (n : Nat) (h : 1 ≤ n) : (b.take n).head? = b.head? := by
  cases b with
  | nil => simp
  | cons t rest =>
    obtain ⟨m, rfl⟩ : ∃ m, n = m + 1 := ⟨n - 1, by omega⟩
    rfl

/-- On a Str buffer that holds its declared bytes, `get` returns bytes 5 to
`5 + L` of the buffer. -/
theorem get_of_complete_str (e : Endian) (b : List Byte) (h2 : b.head? = some 2)
    (hlen : 5 + declared_length b ≤ b.length) :
    get_of_response e b = Outcome.ok ((b.take (5 + declared_length b)).drop 5) := by
  cases b with
  | nil => cases h2
  | cons t rest =>
    have ht : t = TAG_STR := (head_cons_eq t 2 rest).mp h2
    have h4 : ¬ rest.length < 4 := by
      rw [List.length_cons] at hlen
      omega
    rw [get_of_response_cons, if_neg (by rw [ht]; decide), if_neg (not_not.mpr ht), if_neg h4,
      readBytes_fits _ _ _ hlen, List.drop_take]
    congr 2
    omega

/-- C19: the Nil response `[0]` and the Str response `[2, 0, 0, 0, 0]` differ and
both make `get` return the empty string; and on a Str buffer `b1` that holds its
declared `L` bytes, the result of `get` is the same for every buffer `b2` that
agrees with `b1` on the first `5 + L` bytes (tag, length word and the `L` bytes
after it), however the two continue. -/
theorem get_depends_on_declared_part (e : Endian) (b1 b2 : List Byte)
    (h2 : b1.head? = some 2) (hlen : 5 + declared_length b1 ≤ b1.length)
    (hagree : b2.take (5 + declared_length b1) = b1.take (5 + declared_length b1)) :
    (([0] : List Byte) ≠ [2, 0, 0, 0, 0] ∧
        get_of_response e [0] = Outcome.ok [] ∧
        get_of_response e [2, 0, 0, 0, 0] = Outcome.ok []) ∧
      get_of_response e b2 = get_of_response e b1 ∧
      get_of_response e b1 = Outcome.ok ((b1.drop 5).take (declared_length b1)) := by
  have hd : declared_length b2 = declared_length b1 := by
    rw [← declared_length_take b2 (5 + declared_length b1) (by omega), hagree,
      declared_length_take b1 _ (by omega)]
  have hh : b2.head? = some 2 := by
    rw [← head_take b2 (5 + declared_length b1) (by omega), hagree,
      head_take b1 _ (by omega), h2]
  have hl : 5 + declared_length b2 ≤ b2.length := by
    have h := congrArg List.length hagree
    rw [List.length_take, List.length_take] at h
    omega
  have g1 := get_of_complete_str e b1 h2 hlen
  have g2 := get_of_complete_str e b2 hh hl
  rw [hd, hagree] at g2
  refine ⟨⟨by decide, ?_, ?_⟩, ?_, ?_⟩
  · cases e <;> decide
  · cases e <;> decide
  · rw [g1, g2]
  · rw [g1, List.drop_take]
    congr 2
    omega

/-- Witness for C19: the same string `ab` followed by different bytes. -/
theorem get_depends_on_declared_part_witness :
    ([2, 0, 0, 0, 2, 97, 98] : List Byte).head? = some 2 ∧
      5 + declared_length [2, 0, 0, 0, 2, 97, 98] ≤ ([2, 0, 0, 0, 2, 97, 98] : List Byte).length ∧
      ([2, 0, 0, 0, 2, 97, 98, 1, 2, 3] : List Byte).take
          (5 + declared_length [2, 0, 0, 0, 2, 97, 98]) =
        ([2, 0, 0, 0, 2, 97, 98] : List Byte).take
          (5 + declared_length [2, 0, 0, 0, 2, 97, 98]) ∧
      get_of_response Endian.little [2, 0, 0, 0, 2, 97, 98, 1, 2, 3] =
        get_of_response Endian.little [2, 0, 0, 0, 2, 97, 98] ∧
      get_of_response Endian.little [2, 0, 0, 0, 2, 97, 98] = Outcome.ok [97, 98] :=
  ⟨by decide, by decide, by decide,
    (get_depends_on_declared_part Endian.little [2, 0, 0, 0, 2, 97, 98]
      [2, 0, 0, 0, 2, 97, 98, 1, 2, 3] (by decide) (by decide) (by decide)).2⟩

/-! ## The fields are 32-bit -/

theorem wire_args32_eq (cmd : List (List Byte)) : wire_args32 cmd = wire_args cmd := by
  induction cmd with
  | nil => rfl
  | cons arg rest ih => rw [wire_args32, wire_args, ih, BE32_mod]

theorem wire_size_whole (cmd : List (List Byte)) (hw : ∀ a ∈ cmd, a.length ≤ write_limit) :
    wire_size cmd = args_size cmd := by
  induction cmd with
  | nil => rfl
  | cons arg rest ih =>
    rw [wire_size, args_size, ih (fun a ha => hw a (List.mem_cons_of_mem arg ha)),
      Nat.min_eq_left (hw arg (List.mem_cons_self arg rest))]

theorem total_size_loop_lt (t : Nat) (cmd : List (List Byte)) (h : t < 2 ^ 32) :
    total_size_loop t cmd < 2 ^ 32 := by
  induction cmd generalizing t with
  | nil => exact h
  | cons arg rest ih =>
    rw [total_size_loop]
    exact ih _ (Nat.mod_lt _ (by norm_num))

theorem total_size_loop_eq (cmd : List (List Byte)) :
    total_size_loop 4 cmd = (4 + args_size cmd) % 2 ^ 32 := by
  rw [← total_size_loop_mod, Nat.mod_eq_of_lt (total_size_loop_lt 4 cmd (by norm_num))]

/-- C18 (as amended): the fields `send_command` writes are taken modulo
`2 ^ 32`: `total_size` is `(4 + Σ (4 + len(a_i))) mod 2 ^ 32`, `arg_count` is
`n mod 2 ^ 32`, each `arg_len` is `len(a_i) mod 2 ^ 32`, and each argument
follows its length word up to `write_limit` bytes (0x7ffff000, what one `write`
transfers). When no argument is longer than that, all argument bytes are
written, so `4 + Σ (4 + len(a_i))` bytes follow the first field, and the field
equals that number exactly when `4 + Σ (4 + len(a_i)) < 2 ^ 32`. -/
theorem fields_are_modulo_two_pow_32 (e : Endian) (cmd : List (List Byte)) (c : Conn) :
    total_size_loop 4 cmd = (4 + args_size cmd) % 2 ^ 32 ∧
      bytes_written e cmd c =
        BE32 ((4 + args_size cmd) % 2 ^ 32) ++ BE32 (cmd.length % 2 ^ 32) ++ wire_args32 cmd ∧
      beVal ((bytes_written e cmd c).take 4) = (4 + args_size cmd) % 2 ^ 32 ∧
      beVal (((bytes_written e cmd c).drop 4).take 4) = cmd.length % 2 ^ 32 ∧
      ((∀ a ∈ cmd, a.length ≤ write_limit) →
        ((bytes_written e cmd c).drop 4).length = 4 + args_size cmd ∧
        (beVal ((bytes_written e cmd c).take 4) = ((bytes_written e cmd c).drop 4).length ↔
          4 + args_size cmd < 2 ^ 32)) := by
  have hcount : ((wire_frame cmd).drop 4).take 4 = BE32 cmd.length := rfl
  rw [bytes_written_eq, wire_frame_take, wire_frame_drop_length, hcount, beVal_BE32,
    beVal_BE32, wire_args32_eq, BE32_mod, BE32_mod]
  refine ⟨total_size_loop_eq cmd, rfl, rfl, rfl, ?_⟩
  intro hw
  rw [wire_size_whole cmd hw]
  refine ⟨rfl, ?_⟩
  constructor
  · intro h
    have := Nat.mod_lt (4 + args_size cmd) (show 0 < 2 ^ 32 by norm_num)
    omega
  · intro h
    exact Nat.mod_eq_of_lt h

/-- Witness for C18 (as amended): the frame of `get k`. -/
theorem fields_are_modulo_two_pow_32_witness :
    (∀ a ∈ [verb_get, [107]], a.length ≤ write_limit) ∧
      ((bytes_written Endian.little [verb_get, [107]] ⟨[], []⟩).drop 4).length =
        4 + args_size [verb_get, [107]] ∧
      (beVal ((bytes_written Endian.little [verb_get, [107]] ⟨[], []⟩).take 4) =
          ((bytes_written Endian.little [verb_get, [107]] ⟨[], []⟩).drop 4).length ↔
        4 + args_size [verb_get, [107]] < 2 ^ 32) :=
  ⟨by decide,
    (fields_are_modulo_two_pow_32 Endian.little [verb_get, [107]] ⟨[], []⟩).2.2.2.2
      (by decide)⟩

/-- C18 (counterexample): for the single argument of 0x7ffff001 bytes
`4 + Σ (4 + len(a_i))` is 2147479561, below `2 ^ 32`, and the `total_size`
written is 2147479561 while 2147479560 bytes follow it; for the single argument
of `2 ^ 32` bytes 2147479560 bytes follow the field, not the 4294967304 that
writing all argument bytes would give. -/
theorem remainder_short_of_arguments :
    (4 + args_size [cut_arg] = 2147479561 ∧
        beVal ((bytes_written Endian.little [cut_arg] ⟨[], []⟩).take 4) = 2147479561 ∧
        ((bytes_written Endian.little [cut_arg] ⟨[], []⟩).drop 4).length = 2147479560) ∧
      (4 + args_size [huge_arg] = 4294967304 ∧
        ((bytes_written Endian.little [huge_arg] ⟨[], []⟩).drop 4).length = 2147479560) := by
  rw [bytes_written_eq, bytes_written_eq]
  have h1 := single_arg_fields cut_arg
  have h2 := single_arg_fields huge_arg
  rw [cut_arg_length] at h1
  rw [huge_arg_length] at h2
  refine ⟨⟨?_, h1.1, h1.2⟩, ?_, h2.2⟩
  · rw [args_size_single, cut_arg_length]
  · rw [args_size_single, huge_arg_length]

/-! ## Decimal text of an integer -/

theorem dec_digits_fuel (fuel : Nat) :
    ∀ (n : Nat) (acc : List Byte), n < fuel →
      dec_digits fuel n acc = dec_digits (n + 1) n [] ++ acc := by
  induction fuel using Nat.strong_induction_on with
  | _ fuel ih =>
    intro n acc hn
    obtain ⟨f, rfl⟩ : ∃ f, fuel = f + 1 := ⟨fuel - 1, by omega⟩
    by_cases h10 : n < 10
    · simp only [dec_digits, if_pos h10, List.singleton_append]
    · have hdiv : n / 10 < n := by omega
      have hl : dec_digits (f + 1) n acc =
          dec_digits f (n / 10) (byteOf (48 + n % 10) :: acc) := by
        rw [dec_digits, if_neg h10]
      have hr : dec_digits (n + 1) n [] = dec_digits n (n / 10) [byteOf (48 + n % 10)] := by
        rw [dec_digits, if_neg h10]
      rw [hl, hr, ih f (by omega) (n / 10) _ (by omega), ih n (by omega) (n / 10) _ hdiv]
      simp only [List.append_assoc, List.singleton_append]

/-- The digits of `n` are those of `n / 10` followed by the last digit. -/
theorem dec_digits_step (n : Nat) :
    dec_digits (n + 1) n [] =
      if n < 10 then [byteOf (48 + n)]
      else dec_digits (n / 10 + 1) (n / 10) [] ++ [byteOf (48 + n % 10)] := by
  by_cases h10 : n < 10
  · simp only [dec_digits, if_pos h10]
  · have hdiv : n / 10 < n := by omega
    have hr : dec_digits (n + 1) n [] = dec_digits n (n / 10) [byteOf (48 + n % 10)] := by
      rw [dec_digits, if_neg h10]
    rw [hr, if_neg h10, dec_digits_fuel n (n / 10) _ hdiv]

theorem digit_val (d : Nat) (h : d < 10) : (byteOf (48 + d)).val = 48 + d := by
  rw [byteOf_val]
  omega

theorem dec_value_append (ds : List Byte) (b : Byte) :
    dec_value (ds ++ [b]) = 10 * dec_value ds + (b.val - 48) := by
  simp only [dec_value, List.foldl_append, List.foldl_cons, List.foldl_nil]

theorem dec_value_digits (n : Nat) : dec_value (dec_digits (n + 1) n []) = n := by
  induction n using Nat.strong_induction_on with
  | _ n ih =>
    rw [dec_digits_step]
    by_cases h10 : n < 10
    · rw [if_pos h10]
      simp only [dec_value, List.foldl_cons, List.foldl_nil, digit_val n h10]
      omega
    · rw [if_neg h10, dec_value_append, ih (n / 10) (by omega),
        digit_val (n % 10) (Nat.mod_lt n (by decide))]
      omega

theorem digits_all (n : Nat) : (dec_digits (n + 1) n []).all is_digit = true := by
  induction n using Nat.strong_induction_on with
  | _ n ih =>
    rw [dec_digits_step]
    by_cases h10 : n < 10
    · rw [if_pos h10]
      simp only [List.all_cons, List.all_nil, Bool.and_true, is_digit, digit_val n h10,
        decide_eq_true_eq]
      omega
    · rw [if_neg h10, List.all_append, ih (n / 10) (by omega)]
      simp only [List.all_cons, List.all_nil, Bool.and_true, Bool.true_and, is_digit,
        digit_val (n % 10) (Nat.mod_lt n (by decide)), decide_eq_true_eq]
      omega

/-- The digits of a number start with a digit, which is `0` only for the
number 0, whose text is the single digit `0`. -/
theorem digits_head (n : Nat) :
    ∃ b rest, dec_digits (n + 1) n [] = b :: rest ∧ 48 ≤ b.val ∧ b.val ≤ 57 ∧
      (b.val = 48 → n = 0 ∧ rest = []) := by
  induction n using Nat.strong_induction_on with
  | _ n ih =>
    rw [dec_digits_step]
    by_cases h10 : n < 10
    · rw [if_pos h10]
      refine ⟨byteOf (48 + n), [], rfl, ?_, ?_, ?_⟩
      · rw [digit_val n h10]
        omega
      · rw [digit_val n h10]
        omega
      · rw [digit_val n h10]
        intro h
        exact ⟨by omega, rfl⟩
    · rw [if_neg h10]
      obtain ⟨b, rest, hb, hlo, hhi, hz⟩ := ih (n / 10) (by omega)
      refine ⟨b, rest ++ [byteOf (48 + n % 10)], ?_, hlo, hhi, ?_⟩
      · rw [hb, List.cons_append]
      · intro h
        have := (hz h).1
        omega

theorem digits_of_to_string (ms : Int) :
    digits_of (to_string ms) = dec_digits (ms.natAbs + 1) ms.natAbs [] ∧
      ((to_string ms).head? = some 45 ↔ ms < 0) := by
  by_cases hneg : ms < 0
  · have h : to_string ms = 45 :: dec_digits (ms.natAbs + 1) ms.natAbs [] := by
      rw [to_string, if_pos hneg]
    rw [h]
    exact ⟨rfl, fun _ => hneg, fun _ => rfl⟩
  · have h : to_string ms = dec_digits (ms.natAbs + 1) ms.natAbs [] := by
      rw [to_string, if_neg hneg]
    obtain ⟨b, rest, hb, hlo, _, _⟩ := digits_head ms.natAbs
    have hhead : (to_string ms).head? ≠ some 45 := by
      rw [h, hb, List.head?_cons]
      intro h45
      have := Option.some.inj h45
      rw [this] at hlo
      exact absurd hlo (by decide)
    refine ⟨?_, fun h45 => absurd h45 hhead, fun hlt => absurd hlt hneg⟩
    rw [digits_of, if_neg hhead, h]

/-- The text `std::to_string` gives reads back as the integer. -/
theorem parse_decimal_to_string (ms : Int) : parse_decimal (to_string ms) = some ms := by
  obtain ⟨hd, hsign⟩ := digits_of_to_string ms
  obtain ⟨b, rest, hb, _, _, _⟩ := digits_head ms.natAbs
  have hne : digits_of (to_string ms) ≠ [] := by
    rw [hd, hb]
    exact List.cons_ne_nil _ _
  have hall : (digits_of (to_string ms)).all is_digit = true := by
    rw [hd]
    exact digits_all ms.natAbs
  rw [parse_decimal, if_pos ⟨hne, hall⟩, hd, dec_value_digits]
  by_cases hneg : ms < 0
  · rw [if_pos (hsign.mpr hneg)]
    congr 1
    omega
  · rw [if_neg (fun h => hneg (hsign.mp h))]
    congr 1
    omega

/-- The digits of the text start with `0` only in the text `0` itself. -/
theorem to_string_leading_zero (ms : Int)
    (h : (digits_of (to_string ms)).head? = some 48) : to_string ms = [48] := by
  obtain ⟨hd, _⟩ := digits_of_to_string ms
  obtain ⟨b, rest, hb, _, _, hz⟩ := digits_head ms.natAbs
  rw [hd, hb, List.head?_cons] at h
  have hb48 : b = 48 := Option.some.inj h
  have hz2 := hz (by rw [hb48]; rfl)
  have hms : ms = 0 := by omega
  rw [hms]
  rfl

/-! ## What each operation writes -/

theorem digits_length (k : Nat) :
    ∀ n : Nat, n < 10 ^ (k + 1) → (dec_digits (n + 1) n []).length ≤ k + 1 := by
  induction k with
  | zero =>
    intro n hn
    rw [dec_digits_step, if_pos (by simpa using hn)]
    exact le_refl _
  | succ k ih =>
    intro n hn
    rw [dec_digits_step]
    by_cases h10 : n < 10
    · rw [if_pos h10, List.length_singleton]
      omega
    · have hdiv : n / 10 < 10 ^ (k + 1) := by
        rw [Nat.div_lt_iff_lt_mul (by norm_num)]
        rw [pow_succ] at hn
        exact hn
      have := ih (n / 10) hdiv
      rw [if_neg h10, List.length_append, List.length_singleton]
      omega

/-- The text of a 64-bit integer has at most 20 characters. -/
theorem to_string_length (ms : Int) (hlo : -2 ^ 63 ≤ ms) (hhi : ms < 2 ^ 63) :
    (to_string ms).length ≤ 20 := by
  have hn : ms.natAbs < 10 ^ (18 + 1) := by
    have : (10 : Nat) ^ (18 + 1) = 10000000000000000000 := by norm_num
    omega
  have hd := digits_length 18 ms.natAbs hn
  rw [to_string]
  split_ifs
  · rw [List.length_cons]
    omega
  · omega

theorem exchange_sent_whole {α : Type} (e : Endian) (cmd : List (List Byte))
    (k : List Byte → Outcome α) (c : Conn) (hw : ∀ a ∈ cmd, a.length ≤ write_limit) :
    (exchange e cmd k c).2.sent = c.sent ++ frame_layout cmd := by
  rw [exchange_sent, wire_frame_whole cmd hw]

theorem within_limit_two (a b : List Byte) (ha : a.length ≤ write_limit)
    (hb : b.length ≤ write_limit) : ∀ x ∈ [a, b], x.length ≤ write_limit := by
  intro x hx
  simp only [List.mem_cons, List.mem_singleton, List.not_mem_nil, or_false] at hx
  rcases hx with rfl | rfl
  · exact ha
  · exact hb

theorem within_limit_three (a b d : List Byte) (ha : a.length ≤ write_limit)
    (hb : b.length ≤ write_limit) (hd : d.length ≤ write_limit) :
    ∀ x ∈ [a, b, d], x.length ≤ write_limit := by
  intro x hx
  simp only [List.mem_cons, List.mem_singleton, List.not_mem_nil, or_false] at hx
  rcases hx with rfl | rfl | rfl
  · exact ha
  · exact hb
  · exact hd

theorem args_size_two (a b : List Byte) :
    args_size [a, b] = (4 + a.length) + (4 + b.length) := rfl

theorem args_size_three (a b d : List Byte) :
    args_size [a, b, d] = (4 + a.length) + ((4 + b.length) + (4 + d.length)) := rfl

/-- C15 (as amended): for arguments of at most `write_limit` bytes each
(0x7ffff000, what one `write` transfers) and a 64-bit `ms`, each operation
appends to the stream exactly the frame of its verb followed by its arguments in
declared order, the verbs being the ASCII texts `set`, `get`, `del`, `pttl`,
`zrem`, `zscore`, `pexpire`, and every such frame is shorter than `2 ^ 32`
bytes; the third argument of `pexpire` is the decimal text of `ms`: it reads
back as `ms`, it starts with `-` exactly when `ms` is negative, and its digits
start with `0` only when the text is `0`. -/
theorem operations_write_their_frames (e : Endian) (k v m : List Byte) (ms : Int) (c : Conn)
    (hk : k.length ≤ write_limit) (hv : v.length ≤ write_limit) (hm : m.length ≤ write_limit)
    (hlo : -2 ^ 63 ≤ ms) (hhi : ms < 2 ^ 63) :
    ((set e k v c).2.sent = c.sent ++ frame_layout [ascii "set", k, v] ∧
        (get e k c).2.sent = c.sent ++ frame_layout [ascii "get", k] ∧
        (del e k c).2.sent = c.sent ++ frame_layout [ascii "del", k] ∧
        (pttl e k c).2.sent = c.sent ++ frame_layout [ascii "pttl", k] ∧
        (zrem e k m c).2.sent = c.sent ++ frame_layout [ascii "zrem", k, m] ∧
        (zscore e k m c).2.sent = c.sent ++ frame_layout [ascii "zscore", k, m] ∧
        (pexpire e k ms c).2.sent =
          c.sent ++ frame_layout [ascii "pexpire", k, to_string ms]) ∧
      (4 + args_size [ascii "set", k, v] < 2 ^ 32 ∧
        4 + args_size [ascii "get", k] < 2 ^ 32 ∧
        4 + args_size [ascii "del", k] < 2 ^ 32 ∧
        4 + args_size [ascii "pttl", k] < 2 ^ 32 ∧
        4 + args_size [ascii "zrem", k, m] < 2 ^ 32 ∧
        4 + args_size [ascii "zscore", k, m] < 2 ^ 32 ∧
        4 + args_size [ascii "pexpire", k, to_string ms] < 2 ^ 32) ∧
      parse_decimal (to_string ms) = some ms ∧
      ((to_string ms).head? = some 45 ↔ ms < 0) ∧
      ((digits_of (to_string ms)).head? = some 48 → to_string ms = [48]) := by
  have h1 : ascii "set" = verb_set := by decide
  have h2 : ascii "get" = verb_get := by decide
  have h3 : ascii "del" = verb_del := by decide
  have h4 : ascii "pttl" = verb_pttl := by decide
  have h5 : ascii "zrem" = verb_zrem := by decide
  have h6 : ascii "zscore" = verb_zscore := by decide
  have h7 : ascii "pexpire" = verb_pexpire := by decide
  have l1 : verb_set.length = 3 := rfl
  have l2 : verb_get.length = 3 := rfl
  have l3 : verb_del.length = 3 := rfl
  have l4 : verb_pttl.length = 4 := rfl
  have l5 : verb_zrem.length = 4 := rfl
  have l6 : verb_zscore.length = 6 := rfl
  have l7 : verb_pexpire.length = 7 := rfl
  have hwl : write_limit = 2147479552 := rfl
  have ht := to_string_length ms hlo hhi
  have ht2 : (to_string ms).length ≤ write_limit := by omega
  rw [h1, h2, h3, h4, h5, h6, h7]
  refine ⟨⟨?_, ?_, ?_, ?_, ?_, ?_, ?_⟩, ⟨?_, ?_, ?_, ?_, ?_, ?_, ?_⟩,
    parse_decimal_to_string ms, (digits_of_to_string ms).2, to_string_leading_zero ms⟩
  · exact exchange_sent_whole e _ _ c (within_limit_three _ _ _ (by omega) hk hv)
  · exact exchange_sent_whole e _ _ c (within_limit_two _ _ (by omega) hk)
  · exact exchange_sent_whole e _ _ c (within_limit_two _ _ (by omega) hk)
  · exact exchange_sent_whole e _ _ c (within_limit_two _ _ (by omega) hk)
  · exact exchange_sent_whole e _ _ c (within_limit_three _ _ _ (by omega) hk hm)
  · exact exchange_sent_whole e _ _ c (within_limit_three _ _ _ (by omega) hk hm)
  · exact exchange_sent_whole e _ _ c (within_limit_three _ _ _ (by omega) hk ht2)
  · rw [args_size_three]
    omega
  · rw [args_size_two]
    omega
  · rw [args_size_two]
    omega
  · rw [args_size_two]
    omega
  · rw [args_size_three]
    omega
  · rw [args_size_three]
    omega
  · rw [args_size_three]
    omega

/-- Witness for C15 (as amended): key `k`, value `v`, member `m`, `ms` = -5000. -/
theorem operations_write_their_frames_witness :
    ([107] : List Byte).length ≤ write_limit ∧ (-2 ^ 63 ≤ (-5000 : Int)) ∧
      ((-5000 : Int) < 2 ^ 63) ∧
      (pexpire Endian.little [107] (-5000) ⟨[], []⟩).2.sent =
        [] ++ frame_layout [ascii "pexpire", [107], to_string (-5000)] ∧
      parse_decimal (to_string (-5000)) = some (-5000) :=
  ⟨by decide, by decide, by decide,
    (operations_write_their_frames Endian.little [107] [118] [109] (-5000) ⟨[], []⟩
      (by decide) (by decide) (by decide) (by decide) (by decide)).1.2.2.2.2.2.2,
    (operations_write_their_frames Endian.little [107] [118] [109] (-5000) ⟨[], []⟩
      (by decide) (by decide) (by decide) (by decide) (by decide)).2.2.1⟩

/-- C15 (counterexample): `get` with a key of 0x7ffff001 bytes writes 2147479571
bytes, while the frame of `get` and that key has 2147479572: the last byte of
the key is not written. -/
theorem get_writes_less_than_frame :
    (get Endian.little cut_arg ⟨[], []⟩).2.sent.length = 2147479571 ∧
      ([] ++ frame_layout [ascii "get", cut_arg]).length = 2147479572 ∧
      (get Endian.little cut_arg ⟨[], []⟩).2.sent ≠ [] ++ frame_layout [ascii "get", cut_arg] := by
  have h2 : ascii "get" = verb_get := by decide
  have hs : (get Endian.little cut_arg ⟨[], []⟩).2.sent.length = 2147479571 := by
    have hsent : (get Endian.little cut_arg ⟨[], []⟩).2.sent = [] ++ wire_frame [verb_get, cut_arg] :=
      exchange_sent _ _ _ _
    rw [hsent, List.nil_append, wire_frame, List.length_append, List.length_append,
      BE32_length, BE32_length, wire_args_length, wire_size, wire_size_single, cut_arg_length]
    rfl
  have hf : ([] ++ frame_layout [ascii "get", cut_arg]).length = 2147479572 := by
    rw [h2, List.nil_append, frame_layout_length, args_size_two, cut_arg_length]
    rfl
  refine ⟨hs, hf, ?_⟩
  intro heq
  rw [heq, hf] at hs
  exact absurd hs (by decide)

/-! ## Reading one response from the stream -/

end RedisClient
